import Mathlib

/-!
Shallow embedding of the virtual file system implemented in
`file_system_structure.py` (classes `FileSystemNode`, `FileNode`,
`DirectoryNode`, `VirtualFileSystem`).

Modelling conventions:
* Python objects live on a heap; object identity is a `Nat` reference.
  The heap only grows (Python objects are garbage collected, never
  mutated away), so references never dangle in states produced by the
  modelled operations.
* Python `dict` is an insertion-ordered association list; assigning an
  existing key updates the entry in place, assigning a fresh key appends.
* `datetime.now()` is modelled by a monotone counter (`clock`) stored in
  the state; every `now()` call returns the counter and increments it.
  `isoformat`/`fromisoformat` round-trip exactly, so serialization of a
  timestamp is the identity on the counter value.
* Python `str` used as a path is modelled by `List Char`; the text
  obtained by decoding file bytes is modelled by its list of code points
  (`List Nat`).
* Python `bytes` is modelled by `List Nat` (byte values).
* Operations that can raise return `Except PyErr`; operations that the
  source guarantees not to raise return plain values.
-/

set_option autoImplicit false

namespace VFSModel

/-- Python `dict` lookup (first matching key of the association list). -/
def dictGet {κ α : Type} [DecidableEq κ] (d : List (κ × α)) (k : κ) : Option α :=
  match d with
  | [] => none
  | (k', v) :: rest => if k' = k then some v else dictGet rest k

/-- Python `dict` assignment: update an existing key in place, append a new one. -/
def dictSet {κ α : Type} [DecidableEq κ] (d : List (κ × α)) (k : κ) (v : α) :
    List (κ × α) :=
  match d with
  | [] => [(k, v)]
  | (k', v') :: rest =>
    if k' = k then (k', v) :: rest else (k', v') :: dictSet rest k v

/-- Python `del d[k]`: remove every entry with the given key. -/
def dictDel {κ α : Type} [DecidableEq κ] (d : List (κ × α)) (k : κ) : List (κ × α) :=
  d.filter (fun kv => kv.1 ≠ k)

/-- Paths (Python `str` values used as paths) are lists of characters. -/
abbrev Path := List Char

/-- Coerce a Lean string literal to a modelled path. -/
def pstr (s : String) : Path := s.data

/-- Python `str.startswith` for a single character. -/
def headIs (c : Char) : Path → Bool
  | [] => false
  | x :: _ => x = c

/-- Python `str.endswith` for a single character. -/
def lastIs (c : Char) (s : Path) : Bool :=
  match s.getLast? with
  | some x => x = c
  | none => false

/-- Python `str.strip(c)`: drop all leading and trailing occurrences of `c`. -/
def stripChar (c : Char) (s : Path) : Path :=
  ((s.dropWhile (· = c)).reverse.dropWhile (· = c)).reverse

/-- Python `str.split(c)` (for a one-character separator). -/
def sSplit (c : Char) : Path → List Path
  | [] => [[]]
  | x :: xs =>
    if x = c then [] :: sSplit c xs
    else
      match sSplit c xs with
      | h :: t => (x :: h) :: t
      | [] => [[x]]

/-- Index of the last occurrence of `c` viewed from the front, as the
split `(before, after)` around the last occurrence; `none` if absent. -/
def lastSplit (c : Char) : Path → Option (Path × Path)
  | [] => none
  | x :: xs =>
    match lastSplit c xs with
    | some (b, a) => some (x :: b, a)
    | none => if x = c then some ([], xs) else none

/-- Drop a single string-final newline.  In a CPython regex without
`re.MULTILINE`, `$` matches at the end of the string or just before a
newline that ends the string, so that final newline sits outside any
`.*$` match. -/
def chopNl (s : Path) : Path :=
  if lastIs '\n' s then s.dropLast else s

/-- Worker for `beforeLastSlash` over the list of lines: the first line
containing a slash contributes its prefix up to its own last slash. -/
def beforeLastSlashLines : List Path → Option Path
  | [] => none
  | l :: ls =>
    match lastSplit '/' l with
    | some (b, _) => some b
    | none => beforeLastSlashLines ls

/-- `re.search(r".*(?=\/(?!.*\/))", s).group()`.  `.` never crosses a
newline, so both `.*` and the lookahead live inside a single line: the
engine succeeds at the first line containing a slash, matching from that
line's start up to its last slash.  `none` models `re.search` returning
`None` (the subsequent `.group()` raises `AttributeError`); the source
only applies this to normalized paths, whose first line starts with a
slash, so that branch is unreachable there. -/
def beforeLastSlash (s : Path) : Option Path :=
  beforeLastSlashLines (sSplit '\n' s)

/-- `re.search(r"\/(?!.*\/).*$", path).group().replace("/","")`.  A match
needs a slash with no later slash on its own line whose `.*$` reaches the
end of the string (or the position just before a string-final newline):
equivalently, after chopping one string-final newline, the last slash of
what remains must have no newline after it.  The group then runs from
that slash to the chopped end, and `replace` deletes its single slash.
`none` models `re.search` returning `None`, on which `.group()` raises
`AttributeError` — this also hits slash-containing paths whose tail
spans a newline. -/
def afterLastSlash (s : Path) : Option Path :=
  match lastSplit '/' (chopNl s) with
  | some (_, a) => if '\n' ∈ a then none else some a
  | none => none

/-- One line of the `re.sub` below: within a line the pattern
`\/(?!.*\/).*` matches exactly at the line's last slash (if any) and
consumes to the end of the line. -/
def subLine (newName l : Path) : Path :=
  match lastSplit '/' l with
  | some (b, _) => b ++ '/' :: newName
  | none => l

/-- Python `"\n".join`, the inverse of `sSplit '\n'`. -/
def joinLines : List Path → Path
  | [] => []
  | [l] => l
  | l :: ls => l ++ '\n' :: joinLines ls

/-- `re.sub(r"\/(?!.*\/).*", "/" + new_name, path)`: the substitution is
global and `.` stops at newlines, so every line's tail from its own last
slash is replaced independently; slash-free lines (and, absent any
slash, the whole string) come back unchanged. -/
def subLastSlash (s : Path) (newName : Path) : Path :=
  joinLines ((sSplit '\n' s).map (subLine newName))

end VFSModel

namespace VFSModel

/-- Python exceptions that the modelled code can raise, plus `modelStuck`,
an artefact of the embedding marking fuel exhaustion or a dangling heap
reference — situations the Python source cannot reach. -/
inductive PyErr where
  | attributeError
  | unicodeDecodeError
  | indexError
  | modelStuck
deriving DecidableEq, Repr

/-- The file/directory payload of a node (`FileNode.content`/`size`,
`DirectoryNode.children`). -/
inductive NodeKind where
  | file (content : List Nat) (size : Nat)
  | dir (children : List (Path × Nat))
deriving DecidableEq, Repr

/-- One Python node object (`FileSystemNode` attributes plus the
subclass payload). -/
structure NodeObj where
  name : Path
  parent : Option Nat
  created : Nat
  modified : Nat
  accessed : Nat
  kind : NodeKind
deriving DecidableEq, Repr

/-- The whole interpreter state: the object heap, the next fresh
reference, the `VirtualFileSystem` attributes (`root`,
`traversal_cache`) and the global clock backing `datetime.now()`. -/
structure VFS where
  heap : List (Nat × NodeObj)
  nextRef : Nat
  rootRef : Nat
  cache : List (Path × Nat)
  clock : Nat
deriving DecidableEq, Repr

def heapGet (h : List (Nat × NodeObj)) (r : Nat) : Option NodeObj := dictGet h r

def heapSet (h : List (Nat × NodeObj)) (r : Nat) (o : NodeObj) : List (Nat × NodeObj) :=
  dictSet h r o

/-- `datetime.now()`: read the clock and advance it. -/
def tick (S : VFS) : Nat × VFS := (S.clock, { S with clock := S.clock + 1 })

/-- Allocate a fresh Python object on the heap. -/
def alloc (S : VFS) (o : NodeObj) : Nat × VFS :=
  (S.nextRef, { S with heap := heapSet S.heap S.nextRef o, nextRef := S.nextRef + 1 })

/-- `FileSystemNode.__init__` body shared by both subclasses: one
`datetime.now()` call initialises all three timestamps. -/
def newNode (S : VFS) (name : Path) (parent : Option Nat) (kind : NodeKind) :
    Nat × VFS :=
  let (t, S₁) := tick S
  alloc S₁ { name := name, parent := parent, created := t, modified := t,
             accessed := t, kind := kind }

/-- `VirtualFileSystem.__init__` starting from clock `clk`: a root
directory named "/" and a cache holding it. -/
def freshVFS (clk : Nat) : VFS :=
  let S0 : VFS := { heap := [], nextRef := 0, rootRef := 0, cache := [], clock := clk }
  let (r, S₁) := newNode S0 (pstr "/") none (.dir [])
  { S₁ with rootRef := r, cache := [(pstr "/", r)] }

/-- `VirtualFileSystem._normalize_path`. -/
def normalizePath (path : Path) : Path :=
  let path := if path = [] then pstr "/" else path
  let path := if ¬ headIs '/' path then '/' :: path else path
  if path ≠ pstr "/" ∧ lastIs '/' path then path.dropLast else path

/-- The segment walk inside `_get_node_object_by_path`: iterate over the
path parts from a starting node, failing on an empty part, on a
non-directory intermediate node, and on a missing child. -/
def walkParts (h : List (Nat × NodeObj)) : Nat → List Path → Option Nat
  | r, [] => some r
  | r, part :: rest =>
    if part = [] then none
    else
      match heapGet h r with
      | some o =>
        match o.kind with
        | .dir ch =>
          match dictGet ch part with
          | some c => walkParts h c rest
          | none => none
        | .file _ _ => none
      | none => none

/-- `path.strip("/").split("/")` from `_get_node_object_by_path`. -/
def splitParts (p : Path) : List Path := sSplit '/' (stripChar '/' p)

/-- `VirtualFileSystem._get_node_object_by_path`.  Returns the resolved
reference (if any) together with the possibly cache-enlarged state. -/
def getNodeObjectByPath (S : VFS) (path : Path) : Option Nat × VFS :=
  let p := normalizePath path
  match dictGet S.cache p with
  | some r => (some r, S)
  | none =>
    if p = pstr "/" then (some S.rootRef, S)
    else
      match walkParts S.heap S.rootRef (splitParts p) with
      | some r => (some r, { S with cache := dictSet S.cache p r })
      | none => (none, S)

/-- Whether a reference currently denotes a `DirectoryNode`. -/
def isDirRef (S : VFS) (r : Nat) : Bool :=
  match heapGet S.heap r with
  | some o => match o.kind with | .dir _ => true | .file _ _ => false
  | none => false

/-- `VirtualFileSystem._get_parent_directory_and_name`.  The parent
regex runs on the normalized path (whose first line always starts with
a slash, so its `.group()` never raises there); the leaf regex runs on
the *raw* path and its `.group()` raises `AttributeError` whenever that
search fails — on slash-free paths, and on paths whose text after the
last slash spans a newline. -/
def getParentDirectoryAndName (S : VFS) (path : Path) :
    Except PyErr (Option Nat × Path × VFS) :=
  let normalized := normalizePath path
  if path = pstr "/" then .ok (none, [], S)
  else
    match beforeLastSlash normalized with
    | none => .error .attributeError
    | some parentPath =>
      match afterLastSlash path with
      | none => .error .attributeError
      | some name =>
        let (p?, S₁) := getNodeObjectByPath S parentPath
        match p? with
        | none => .ok (none, name, S₁)
        | some pr => if isDirRef S₁ pr then .ok (some pr, name, S₁) else .ok (none, name, S₁)

/-- `VirtualFileSystem._remove_changed_node_from_cache`. -/
def removeChangedNodeFromCache (S : VFS) (cachedPath : Path) : VFS :=
  let normalized := normalizePath cachedPath
  let kept := S.cache.filter
    (fun kv => ¬ (kv.1 = normalized ∨ (normalized ++ ['/']).isPrefixOf kv.1))
  { S with cache := kept }

/-- `DirectoryNode.add_child`: insert under `child.name`, set the child's
parent, refresh the parent's modified time.  (No-op on the unreachable
branches where a reference dangles or the parent is not a directory.) -/
def addChild (S : VFS) (pr cr : Nat) : VFS :=
  match heapGet S.heap cr, heapGet S.heap pr with
  | some c, some pobj =>
    match pobj.kind with
    | .dir ch =>
      let newKind := NodeKind.dir (dictSet ch c.name cr)
      let S₁ := { S with heap := heapSet S.heap pr { pobj with kind := newKind } }
      let S₂ := { S₁ with heap := heapSet S₁.heap cr { c with parent := some pr } }
      let (t, S₃) := tick S₂
      { S₃ with heap := heapSet S₃.heap pr { pobj with kind := newKind, modified := t } }
    | .file _ _ => S
  | _, _ => S

/-- `DirectoryNode.remove_child`: silently does nothing when the name is
absent, otherwise deletes it and refreshes the modified time. -/
def removeChild (S : VFS) (pr : Nat) (childName : Path) : VFS :=
  match heapGet S.heap pr with
  | some pobj =>
    match pobj.kind with
    | .dir ch =>
      match dictGet ch childName with
      | some _ =>
        let newKind := NodeKind.dir (dictDel ch childName)
        let h₁ := heapSet S.heap pr { pobj with kind := newKind }
        let S₁ := { S with heap := h₁ }
        let (t, S₂) := tick S₁
        let h₂ := heapSet S₂.heap pr { pobj with kind := newKind, modified := t }
        { S₂ with heap := h₂ }
      | none => S
    | .file _ _ => S
  | none => S

/-- `node.update_timestamp_metadata("modified")` for a single node. -/
def touchModified (S : VFS) (r : Nat) : VFS :=
  match heapGet S.heap r with
  | some o =>
    let (t, S₁) := tick S
    { S₁ with heap := heapSet S₁.heap r { o with modified := t } }
  | none => S

end VFSModel

namespace VFSModel

/-- `VirtualFileSystem.create_file`. -/
def createFile (S : VFS) (path : Path) (content : List Nat) :
    Except PyErr (Bool × VFS) :=
  let normalized := normalizePath path
  match getParentDirectoryAndName S path with
  | .error e => .error e
  | .ok (parent?, fileName, S₁) =>
    match parent? with
    | none => .ok (false, S₁)
    | some pr =>
      match heapGet S₁.heap pr with
      | some pobj =>
        match pobj.kind with
        | .dir ch =>
          match dictGet ch fileName with
          | some _ => .ok (false, S₁)
          | none =>
            let (fr, S₂) := newNode S₁ fileName (some pr)
              (.file content content.length)
            let S₃ := addChild S₂ pr fr
            { S₃ with cache := dictSet S₃.cache normalized fr } |>
              (fun S₄ => .ok (true, S₄))
        | .file _ _ => .ok (false, S₁)
      | none => .ok (false, S₁)

/-- `FileNode.read`: refresh the accessed time, return the content. -/
def fileRead (S : VFS) (fr : Nat) (o : NodeObj) (content : List Nat) :
    List Nat × VFS :=
  let (t, S₁) := tick S
  (content, { S₁ with heap := heapSet S₁.heap fr { o with accessed := t } })

/-- `VirtualFileSystem.read_file`. -/
def readFile (S : VFS) (path : Path) : Option (List Nat) × VFS :=
  let (node?, S₁) := getNodeObjectByPath S path
  match node? with
  | none => (none, S₁)
  | some fr =>
    match heapGet S₁.heap fr with
    | some o =>
      match o.kind with
      | .file content _ =>
        let (c, S₂) := fileRead S₁ fr o content
        (some c, S₂)
      | .dir _ => (none, S₁)
    | none => (none, S₁)

/-- `FileNode.write`: replace content and size, then refresh created,
modified and accessed with three separate `now()` calls. -/
def fileWrite (S : VFS) (fr : Nat) (o : NodeObj) (content : List Nat) : VFS :=
  let o₁ := { o with kind := NodeKind.file content content.length }
  let (t₁, S₁) := tick S
  let (t₂, S₂) := tick S₁
  let (t₃, S₃) := tick S₂
  let o₂ := { o₁ with created := t₁, modified := t₂, accessed := t₃ }
  { S₃ with heap := heapSet S₃.heap fr o₂ }

/-- `VirtualFileSystem.write_file`. -/
def writeFile (S : VFS) (path : Path) (content : List Nat) :
    Except PyErr (Bool × VFS) :=
  let (node?, S₁) := getNodeObjectByPath S path
  match node? with
  | none =>
    match getParentDirectoryAndName S₁ path with
    | .error e => .error e
    | .ok (parent?, fileName, S₂) =>
      match parent? with
      | none => .ok (false, S₂)
      | some pr =>
        let (fr, S₃) := newNode S₂ fileName (some pr) (.file content content.length)
        let S₄ := addChild S₃ pr fr
        let S₅ := { S₄ with cache := dictSet S₄.cache (normalizePath path) fr }
        .ok (true, S₅)
  | some fr =>
    match heapGet S₁.heap fr with
    | some o =>
      match o.kind with
      | .file _ _ => .ok (true, fileWrite S₁ fr o content)
      | .dir _ => .ok (false, S₁)
    | none => .ok (false, S₁)

/-- `VirtualFileSystem.create_directory`. -/
def createDirectory (S : VFS) (path : Path) : Except PyErr (Bool × VFS) :=
  match getParentDirectoryAndName S path with
  | .error e => .error e
  | .ok (parent?, dirName, S₁) =>
    match parent? with
    | none => .ok (false, S₁)
    | some pr =>
      match heapGet S₁.heap pr with
      | some pobj =>
        match pobj.kind with
        | .dir ch =>
          match dictGet ch dirName with
          | some _ => .ok (false, S₁)
          | none =>
            let (dr, S₂) := newNode S₁ dirName (some pr) (.dir [])
            let S₃ := addChild S₂ pr dr
            let S₄ := { S₃ with cache := dictSet S₃.cache (normalizePath path) dr }
            .ok (true, S₄)
        | .file _ _ => .ok (false, S₁)
      | none => .ok (false, S₁)

/-- `VirtualFileSystem.delete`. -/
def deleteNode (S : VFS) (path : Path) : Except PyErr (Bool × VFS) :=
  match getParentDirectoryAndName S path with
  | .error e => .error e
  | .ok (parent?, nodeName, S₁) =>
    match parent? with
    | none => .ok (false, S₁)
    | some pr =>
      let (node?, S₂) := getNodeObjectByPath S₁ path
      match node? with
      | none => .ok (false, S₂)
      | some nr =>
        if nr = S₂.rootRef then .ok (false, S₂)
        else
          let S₃ := removeChild S₂ pr nodeName
          let S₄ := { S₃ with cache := dictSet S₃.cache (normalizePath path) nr }
          let S₅ := removeChangedNodeFromCache S₄ path
          let S₆ := touchModified S₅ pr
          .ok (true, S₆)

/-- `VirtualFileSystem.rename`. -/
def renameNode (S : VFS) (path : Path) (newName : Path) :
    Except PyErr (Bool × VFS) :=
  match getParentDirectoryAndName S path with
  | .error e => .error e
  | .ok (parent?, nodeName, S₁) =>
    match parent? with
    | none => .ok (false, S₁)
    | some pr =>
      match heapGet S₁.heap pr with
      | some pobj =>
        match pobj.kind with
        | .dir ch =>
          match dictGet ch nodeName with
          | none => .ok (false, S₁)
          | some nr =>
            match heapGet S₁.heap nr with
            | some nobj =>
              let S₂ := removeChild S₁ pr nobj.name
              let h₃ := heapSet S₂.heap nr { nobj with name := newName }
              let S₃ := { S₂ with heap := h₃ }
              let S₄ := addChild S₃ pr nr
              let S₅ := removeChangedNodeFromCache S₄ path
              let newPath := subLastSlash path newName
              let c₆ := dictSet S₅.cache (normalizePath newPath) nr
              let S₆ := { S₅ with cache := c₆ }
              .ok (true, S₆)
            | none => .ok (false, S₁)
        | .file _ _ => .ok (false, S₁)
      | none => .ok (false, S₁)

end VFSModel

namespace VFSModel

/-- `str.encode("utf-8")` for one code point (standard UTF-8 encoder). -/
def utf8EncodeChar (c : Nat) : List Nat :=
  if c < 128 then [c]
  else if c < 2048 then [192 + c / 64, 128 + c % 64]
  else if c < 65536 then [224 + c / 4096, 128 + c / 64 % 64, 128 + c % 64]
  else [240 + c / 262144, 128 + c / 4096 % 64, 128 + c / 64 % 64, 128 + c % 64]

/-- `str.encode("utf-8")` on a whole text (list of code points). -/
def utf8Encode (s : List Nat) : List Nat := (s.map utf8EncodeChar).flatten

/-- Whether a byte is a UTF-8 continuation byte (`0x80..0xBF`). -/
def contB (b : Nat) : Bool := 128 ≤ b && b < 192

/-- One step of `bytes.decode("utf-8")` with CPython's strict checks:
given the first byte and the remaining bytes, produce the decoded code
point and the bytes left over, or `none` on a malformed sequence.
Rejects stray continuation bytes, overlong encodings (`C0`/`C1`,
`E0 80..`, `F0 80..`), surrogates (`ED A0..`) and code points above
`U+10FFFF` (`F5..FF`, `F4 90..`). -/
def utf8DecodeChar1 (b : Nat) (rest : List Nat) : Option (Nat × List Nat) :=
  if b < 128 then some (b, rest)
  else if b < 194 then none
  else if b < 224 then
    match rest with
    | b1 :: r2 => if contB b1 then some ((b - 192) * 64 + (b1 - 128), r2) else none
    | [] => none
  else if b < 240 then
    match rest with
    | c1 :: c2 :: r3 =>
      if contB c1 && contB c2 && (decide (b ≠ 224) || decide (160 ≤ c1)) &&
          (decide (b ≠ 237) || decide (c1 < 160)) then
        some ((b - 224) * 4096 + (c1 - 128) * 64 + (c2 - 128), r3)
      else none
    | _ => none
  else if b < 245 then
    match rest with
    | d1 :: d2 :: d3 :: r4 =>
      if contB d1 && contB d2 && contB d3 && (decide (b ≠ 240) || decide (144 ≤ d1)) &&
          (decide (b ≠ 244) || decide (d1 < 144)) then
        some ((b - 240) * 262144 + (d1 - 128) * 4096 + (d2 - 128) * 64 + (d3 - 128), r4)
      else none
    | _ => none
  else none

/-- The decode loop, structurally recursive on a fuel bound.  Each step
consumes at least one byte, so fuel equal to the byte count always
suffices; the fuel-exhaustion arm is unreachable from `utf8Decode`. -/
def utf8DecodeF : Nat → List Nat → Option (List Nat)
  | _, [] => some []
  | 0, _ :: _ => none
  | fuel + 1, b :: rest =>
    match utf8DecodeChar1 b rest with
    | some (c, r) => (utf8DecodeF fuel r).map (fun s => c :: s)
    | none => none

/-- `bytes.decode("utf-8")` on a whole byte string. -/
def utf8Decode (bs : List Nat) : Option (List Nat) := utf8DecodeF bs.length bs

/-- The nested-map serialization format (`to_dict` output / `from_dict`
input).  File `content` holds the decoded text as code points, except in
the top-level `FileNode.to_dict`, which overwrites it with raw bytes. -/
inductive DVal where
  | file (created accessed modified : Nat) (size : Nat) (content : List Nat)
  | dir (created accessed modified : Nat) (children : List (Path × DVal))

/-- `self.content.decode("utf-8")` inside `to_metadata`, raising
`UnicodeDecodeError` on invalid bytes. -/
def decodeBytes (content : List Nat) : Except PyErr (List Nat) :=
  match utf8Decode content with
  | some s => .ok s
  | none => .error .unicodeDecodeError

/-- The children comprehension of `DirectoryNode.to_dict`, parametrised
by the serializer `f` used on directory children: directories recurse
via `to_dict` (here `f`), files are emitted via `to_metadata` (content
as decoded text). -/
def serChildrenWith (h : List (Nat × NodeObj)) (f : Nat → Except PyErr DVal) :
    List (Path × Nat) → Except PyErr (List (Path × DVal))
  | [] => .ok []
  | (n, cr) :: rest =>
    match heapGet h cr with
    | none => .error .modelStuck
    | some c =>
      match c.kind with
      | .file content size =>
        match decodeBytes content with
        | .error e => .error e
        | .ok cps =>
          match serChildrenWith h f rest with
          | .error e => .error e
          | .ok tail => .ok ((n, .file c.created c.accessed c.modified size cps) :: tail)
      | .dir _ =>
        match f cr with
        | .error e => .error e
        | .ok d =>
          match serChildrenWith h f rest with
          | .error e => .error e
          | .ok tail => .ok ((n, d) :: tail)

/-- `node.to_dict()` on a heap reference.  For a directory this is
`DirectoryNode.to_dict`; for a file it is `FileNode.to_dict` (metadata —
including the decode of the content — then the raw bytes are put back).
The fuel argument is an embedding artefact: exhausting it (or hitting a
dangling reference, impossible in Python) yields `modelStuck`. -/
def toDictNode (h : List (Nat × NodeObj)) : Nat → Nat → Except PyErr DVal
  | 0, _ => .error .modelStuck
  | fuel + 1, r =>
    match heapGet h r with
    | none => .error .modelStuck
    | some o =>
      match o.kind with
      | .file content size =>
        match utf8Decode content with
        | none => .error .unicodeDecodeError
        | some _ => .ok (.file o.created o.accessed o.modified size content)
      | .dir ch =>
        match serChildrenWith h (fun cr => toDictNode h fuel cr) ch with
        | .error e => .error e
        | .ok cs => .ok (.dir o.created o.accessed o.modified cs)

/-- `VirtualFileSystem.to_dict` (with ample fuel: one unit per heap
object plus one, which exceeds any tree depth in the heap). -/
def vfsToDict (S : VFS) : Except PyErr DVal :=
  toDictNode S.heap (S.heap.length + 1) S.rootRef

/-- Build a `NodeObj` from explicit fields (order: created, modified,
accessed). -/
def mkNodeObj (name : Path) (parent : Option Nat) (cr mo ac : Nat)
    (kind : NodeKind) : NodeObj :=
  ⟨name, parent, cr, mo, ac, kind⟩

mutual

/-- `_construct_node` inside `from_dict`: rebuild one node object.  The
subclass `__init__` consumes one `now()` tick before every field is
overwritten with the persisted value; file content is re-encoded with
UTF-8; for directories, children are rebuilt and attached with
`add_child` (which refreshes the directory's modified time). -/
def constructNode (name : Path) (parent : Option Nat) :
    DVal → VFS → Nat × VFS
  | .file cr ac mo size content, S =>
    let (_, S₁) := tick S
    alloc S₁ (mkNodeObj name parent cr mo ac (.file (utf8Encode content) size))
  | .dir cr ac mo children, S =>
    let (_, S₁) := tick S
    let (dr, S₂) := alloc S₁ (mkNodeObj name parent cr mo ac (.dir []))
    (dr, constructChildren dr children S₂)

/-- The children loop of `_construct_node`'s directory branch. -/
def constructChildren (dr : Nat) : List (Path × DVal) → VFS → VFS
  | [], S => S
  | (cn, cd) :: rest, S =>
    let (cref, S₁) := constructNode cn (some dr) cd S
    constructChildren dr rest (addChild S₁ dr cref)

end

/-- `str.rstrip("/")`. -/
def rstripSlash (s : Path) : Path := (s.reverse.dropWhile (· = '/')).reverse

/-- The child-path expression of `_cache_persisted_data`, including its
doubled slash: `current_path.rstrip("/") + "/" + "/" + child_name` for a
non-root current path. -/
def childPathOf (cur : Path) (cn : Path) : Path :=
  if cur ≠ pstr "/" then rstripSlash cur ++ '/' :: '/' :: cn else '/' :: cn

/-- `_cache_persisted_data`: cache the node at the current path, then
recurse into directory children (fuel is an embedding artefact; every
actual call gets more fuel than the heap has objects). -/
def cachePersist : Nat → VFS → Nat → Path → VFS
  | 0, S, _, _ => S
  | fuel + 1, S, r, curPath =>
    let S₁ := { S with cache := dictSet S.cache curPath r }
    match heapGet S₁.heap r with
    | some o =>
      match o.kind with
      | .dir ch =>
        ch.foldl (fun Sa cc => cachePersist fuel Sa cc.2 (childPathOf curPath cc.1)) S₁
      | .file _ _ => S₁
    | none => S₁

/-- `VirtualFileSystem.from_dict`, starting from global clock `clk`:
fresh instance, root reconstruction, cache population.  An empty dict
raises `IndexError` at `list(data.keys())[0]`. -/
def fromDict (clk : Nat) (data : List (Path × DVal)) : Except PyErr VFS :=
  let S0 := freshVFS clk
  match data with
  | [] => .error .indexError
  | (rootName, rootData) :: _ =>
    let (r, S₁) := constructNode rootName none rootData S0
    let S₂ := { S₁ with rootRef := r }
    .ok (cachePersist (S₂.heap.length + 1) S₂ r (pstr "/"))

/-- `update_json_storage`'s persisted payload: the serialized tree
wrapped under the root's display name `/`. -/
def persistedData (S : VFS) : Except PyErr (List (Path × DVal)) :=
  match vfsToDict S with
  | .ok d => .ok [(pstr "/", d)]
  | .error e => .error e

end VFSModel

namespace VFSModel

/-! ### Derived notions used by the specification statements -/

/-- The pure walk that `_get_node_object_by_path` performs when the
cache misses: the node a normalized path denotes by walking from the
root, with the root itself for `/`. -/
def walkOnly (S : VFS) (q : Path) : Option Nat :=
  if q = pstr "/" then some S.rootRef else walkParts S.heap S.rootRef (splitParts q)

/-- The cache-coherence invariant of the specification: every cache
entry denotes exactly the node reachable by walking its key. -/
def coherentB (S : VFS) : Bool :=
  S.cache.all (fun kv => decide (walkOnly S kv.1 = some kv.2))

/-- Heap well-formedness: every directory's child references are
strictly larger than the directory's own reference.  This holds in
every state the program can build, because children are always
allocated after their parent; it rules out reference cycles. -/
def childMonoB (S : VFS) : Bool :=
  S.heap.all (fun ro =>
    match ro.2.kind with
    | .dir ch => ch.all (fun cc => decide (ro.1 < cc.2))
    | .file _ _ => true)

/-- Heap well-formedness: a directory's children dict keys agree with
the child objects' `name` attributes (`children[k].name == k`). -/
def namesConsistentB (S : VFS) : Bool :=
  S.heap.all (fun ro =>
    match ro.2.kind with
    | .dir ch => ch.all (fun cc =>
        decide ((heapGet S.heap cc.2).map (fun o => o.name) = some cc.1))
    | .file _ _ => true)

/-- Heap well-formedness: every allocated reference is below `nextRef`,
so a fresh allocation never collides with a live object. -/
def keysLtNextB (S : VFS) : Bool :=
  S.heap.all (fun ro => decide (ro.1 < S.nextRef))

/-- The conjunction of cache coherence and heap well-formedness. -/
def goodB (S : VFS) : Bool :=
  coherentB S && childMonoB S && namesConsistentB S && keysLtNextB S

/-- A well-formed path segment: non-empty and free of separators. -/
def SegOk (s : Path) : Prop := s ≠ [] ∧ '/' ∉ s

instance (s : Path) : Decidable (SegOk s) := by
  unfold SegOk; infer_instance

/-- Assemble a canonical absolute path `/s₁/s₂/…/sₙ` from segments. -/
def joinSegs (segs : List Path) : Path :=
  (segs.map (fun s => '/' :: s)).flatten

/-- The file contents that `to_dict` tries to decode below one child
list, given the collector `f` for directory children.  This is the
specification-side mirror of `serChildrenWith`, used to state claim
C10's "every file's content in the tree". -/
def specFileContentsWith (h : List (Nat × NodeObj)) (f : Nat → List (List Nat)) :
    List (Path × Nat) → List (List Nat)
  | [] => []
  | (_, cr) :: rest =>
    match heapGet h cr with
    | none => []
    | some c =>
      match c.kind with
      | .file content _ => content :: specFileContentsWith h f rest
      | .dir _ => f cr ++ specFileContentsWith h f rest

/-- All file contents that serializing the node at `r` tries to decode
(specification-side mirror of `toDictNode`). -/
def specFileContents (h : List (Nat × NodeObj)) : Nat → Nat → List (List Nat)
  | 0, _ => []
  | fuel + 1, r =>
    match heapGet h r with
    | none => []
    | some o =>
      match o.kind with
      | .file content _ => [content]
      | .dir ch => specFileContentsWith h (specFileContents h fuel) ch

/-- The object `FileNode.write` leaves behind when called at clock `t`:
new content and size, and the three timestamps refreshed by three
consecutive `now()` calls. -/
def writtenObj (o : NodeObj) (c : List Nat) (t : Nat) : NodeObj :=
  { o with kind := NodeKind.file c c.length, created := t, modified := t + 1,
           accessed := t + 2 }

/-- Whether an `Except` result is a success (used to state decidable
facts about serialization results, since `DVal` carries no decidable
equality). -/
def exOk {a : Type} (x : Except PyErr a) : Bool :=
  match x with
  | .ok _ => true
  | .error _ => false

/-- The shared tail of `create_file`/`create_directory` after all
checks passed: construct the node, attach it with `add_child`, cache
the normalized path.  (Introduced so the success case of the create
operations can be characterised once.) -/
def createTail (S₁ : VFS) (normalized name : Path) (pr : Nat) (kind : NodeKind) : VFS :=
  let (fr, S₂) := newNode S₁ name (some pr) kind
  let S₃ := addChild S₂ pr fr
  { S₃ with cache := dictSet S₃.cache normalized fr }

/-- The tail of `rename` after the node was found: detach under the old
name, rewrite the name attribute, re-attach, purge the old subtree from
the cache and cache the new path.  (Introduced so the success case of
`rename` can be characterised once.) -/
def renameTail (S₁ : VFS) (path newName : Path) (pr nr : Nat) (nobj : NodeObj) : VFS :=
  let S₂ := removeChild S₁ pr nobj.name
  let h₃ := heapSet S₂.heap nr { nobj with name := newName }
  let S₃ := { S₂ with heap := h₃ }
  let S₄ := addChild S₃ pr nr
  let S₅ := removeChangedNodeFromCache S₄ path
  let c₆ := dictSet S₅.cache (normalizePath (subLastSlash path newName)) nr
  { S₅ with cache := c₆ }

/-! ### Concrete states used by the counterexample theorems -/

/-- Extract the state of a non-raising operation result (used only on
operations proved to succeed). -/
def runOp (x : Except PyErr (Bool × VFS)) : VFS :=
  match x with
  | .ok (_, S) => S
  | .error _ => freshVFS 0

/-- `create_directory("/a")` on a fresh file system. -/
def stDirA : VFS := runOp (createDirectory (freshVFS 0) (pstr "/a"))

/-- … then `create_file("/a//b", b"x")` — a malformed path with an
internal empty segment. -/
def stSlashSlash : VFS := runOp (createFile stDirA (pstr "/a//b") [120])

/-- … then `create_file("/a/b", b"x")` on the clean path instead. -/
def stFileAB : VFS := runOp (createFile stDirA (pstr "/a/b") [120])

/-- `stFileAB` after `delete("/a/b/")` (trailing separator). -/
def stAfterDeleteSlash : VFS := runOp (deleteNode stFileAB (pstr "/a/b/"))

/-- `stDirA` after `rename("/a", "a")` (new name equal to the old). -/
def stRenameSame : VFS := runOp (renameNode stDirA (pstr "/a") (pstr "a"))

/-- `create_directory("/d")`; `create_file("/d/f", b"h")`. -/
def stDirD : VFS := runOp (createDirectory (freshVFS 0) (pstr "/d"))

/-- See `stDirD`. -/
def stFileDF : VFS := runOp (createFile stDirD (pstr "/d/f") [104])

/-- `stFileDF` after `write_file("/d/f", b"i")` on the existing file. -/
def stAfterWrite : VFS := runOp (writeFile stFileDF (pstr "/d/f") [105])

/-- `create_file("/f", b"hi")` on a fresh file system: the tree used by
the round-trip counterexample. -/
def stFileF : VFS := runOp (createFile (freshVFS 0) (pstr "/f") [104, 105])

/-- The persisted payload of `stFileF` (defined, since serialization of
ASCII content succeeds). -/
def stFileFDict : List (Path × DVal) :=
  match persistedData stFileF with
  | .ok d => d
  | .error _ => []

/-- `from_dict` applied to `stFileF`'s persisted payload, starting at
the clock where `stFileF` left off. -/
def stRoundTrip : VFS :=
  match fromDict stFileF.clock stFileFDict with
  | .ok S => S
  | .error _ => freshVFS 0

/-- A persisted two-level tree: `/` containing directory `a` containing
file `b` (content `b"x"`). -/
def twoLevelDict : List (Path × DVal) :=
  [(pstr "/", .dir 0 0 0 [(pstr "a", .dir 1 1 1 [(pstr "b", .file 2 2 2 1 [120])])])]

/-- The state `from_dict` builds from `twoLevelDict`. -/
def stTwoLevel : VFS :=
  match fromDict 10 twoLevelDict with
  | .ok S => S
  | .error _ => freshVFS 0

end VFSModel

namespace VFSModel

/-! ### Association-list (Python dict) lemmas -/

@[simp] theorem dictGet_nil {κ α : Type} [DecidableEq κ] (k : κ) :
    dictGet ([] : List (κ × α)) k = none := rfl

theorem dictGet_dictSet_self {κ α : Type} [DecidableEq κ]
    (d : List (κ × α)) (k : κ) (v : α) : dictGet (dictSet d k v) k = some v := by
  induction d with
  | nil => simp [dictGet, dictSet]
  | cons kv rest ih =>
    by_cases h : kv.1 = k
    · simp [dictGet, dictSet, h]
    · simpa [dictGet, dictSet, h] using ih

theorem dictGet_dictSet_other {κ α : Type} [DecidableEq κ]
    (d : List (κ × α)) (k k' : κ) (v : α) (hne : k' ≠ k) :
    dictGet (dictSet d k v) k' = dictGet d k' := by
  induction d with
  | nil => simp [dictGet, dictSet, Ne.symm hne]
  | cons kv rest ih =>
    by_cases h : kv.1 = k
    · subst h
      simp [dictGet, dictSet, Ne.symm hne]
    · simp only [dictSet, if_neg h, dictGet]
      by_cases h' : kv.1 = k'
      · simp [h']
      · simp [h', ih]

theorem dictGet_dictDel_self {κ α : Type} [DecidableEq κ]
    (d : List (κ × α)) (k : κ) : dictGet (dictDel d k) k = none := by
  induction d with
  | nil => simp [dictDel]
  | cons kv rest ih =>
    by_cases h : kv.1 = k
    · simpa [dictDel, h] using ih
    · simpa [dictDel, dictGet, h] using ih

theorem dictGet_dictDel_other {κ α : Type} [DecidableEq κ]
    (d : List (κ × α)) (k k' : κ) (hne : k' ≠ k) :
    dictGet (dictDel d k) k' = dictGet d k' := by
  induction d with
  | nil => simp [dictDel]
  | cons kv rest ih =>
    by_cases h : kv.1 = k
    · have hkk : kv.1 ≠ k' := by
        intro hk; exact hne (by rw [← hk, h])
      simp only [dictDel, List.filter_cons] at *
      simpa [h, dictGet, hkk, hne, Ne.symm hne] using ih
    · simp only [dictDel, List.filter_cons] at *
      by_cases h' : kv.1 = k'
      · simp [h, dictGet, h', hne, Ne.symm hne]
      · simpa [h, dictGet, h', hne, Ne.symm hne] using ih

end VFSModel

namespace VFSModel

/-! ### Concrete evaluations of the code at the failing inputs -/

/-- C1: the cache-coherence invariant does not survive `from_dict`.
Deserializing a two-level tree (directory `a` holding file `b`) leaves
the entry `"/a//b"` in `traversal_cache` — installed by
`_cache_persisted_data`'s doubled separator — although walking
`"/a//b"` from the root reaches no node, so the invariant "every
present entry denotes the node reachable by walking its path" is
violated in a reachable state. -/
theorem c1_from_dict_breaks_cache_coherence :
    dictGet stTwoLevel.cache (pstr "/a//b") = some 3 ∧
    walkParts stTwoLevel.heap stTwoLevel.rootRef (splitParts (pstr "/a//b")) = none ∧
    coherentB stTwoLevel = false := by
  refine ⟨by decide, by decide, by decide⟩

/-- C2: the serialization round-trip does not preserve directory
`modified` timestamps.  For the tree built by `create_file("/f", b"hi")`
the root's modified time is 2, but after `from_dict` of the persisted
payload the rebuilt root's modified time is 6 (the deserialization
instant, written by `add_child` after the persisted value was
restored); `created` is preserved. -/
theorem c2_round_trip_clobbers_directory_modified :
    (heapGet stFileF.heap stFileF.rootRef).map (fun o => o.modified) = some 2 ∧
    (heapGet stRoundTrip.heap stRoundTrip.rootRef).map (fun o => o.modified) = some 6 ∧
    (heapGet stFileF.heap stFileF.rootRef).map (fun o => o.created) = some 0 ∧
    (heapGet stRoundTrip.heap stRoundTrip.rootRef).map (fun o => o.created) = some 0 := by
  refine ⟨by decide, by decide, by decide, by decide⟩

/-- C3: the CRUD interface is not total.  `create_file("")` (and any
path without a separator, e.g. `create_directory("docs")`) raises
`AttributeError`: `_get_parent_directory_and_name` runs its leaf-name
regex on the raw, un-normalized path, finds no match, and calls
`.group()` on `None`. -/
theorem c3_create_raises_attribute_error :
    createFile (freshVFS 0) (pstr "") [] = .error .attributeError ∧
    createDirectory (freshVFS 0) (pstr "docs") = .error .attributeError := by
  exact ⟨rfl, rfl⟩

/-- C4: a successful `delete` need not delete.  With file `/a/b`
present, `delete("/a/b/")` returns `True` — the leaf-name regex on the
raw path yields the empty name, `remove_child("")` silently does
nothing — yet `/a/b` still reads back and the path `/a/b/` still
resolves afterwards. -/
theorem c4_delete_trailing_slash_reports_success_without_deleting :
    deleteNode stFileAB (pstr "/a/b/") = .ok (true, stAfterDeleteSlash) ∧
    (readFile stAfterDeleteSlash (pstr "/a/b")).1 = some [120] ∧
    ((getNodeObjectByPath stAfterDeleteSlash (pstr "/a/b/")).1).isSome = true := by
  refine ⟨rfl, by decide, by decide⟩

/-- C8: a path with an internal empty segment can resolve.  After
`create_directory("/a")`, the call `create_file("/a//b", b"x")`
succeeds (the parent split collapses the doubled separator) and caches
the malformed key, so `read_file("/a//b")` returns the content even
though the segment walk for `"/a//b"` (shown in the last conjunct)
rejects the path. -/
theorem c8_internal_empty_segment_resolves_via_cache :
    createFile stDirA (pstr "/a//b") [120] = .ok (true, stSlashSlash) ∧
    (readFile stSlashSlash (pstr "/a//b")).1 = some [120] ∧
    walkParts stSlashSlash.heap stSlashSlash.rootRef (splitParts (pstr "/a//b")) = none := by
  refine ⟨rfl, by decide, by decide⟩

/-- C6 counterexample: `write_file` on an existing file does not touch
the containing directory's modified time.  In `stFileDF` the directory
`/d` (reference 1) has modified time 4; after `write_file("/d/f",
b"i")` it is still 4 while the file's created/modified/accessed advance
to 5/6/7. -/
theorem c6_write_does_not_touch_parent_modified :
    writeFile stFileDF (pstr "/d/f") [105] = .ok (true, stAfterWrite) ∧
    (heapGet stFileDF.heap 1).map (fun o => o.modified) = some 4 ∧
    (heapGet stAfterWrite.heap 1).map (fun o => o.modified) = some 4 ∧
    (heapGet stAfterWrite.heap 2).map (fun o => (o.created, o.modified, o.accessed)) =
      some (5, 6, 7) := by
  refine ⟨rfl, by decide, by decide, by decide⟩

end VFSModel

namespace VFSModel

/-! ### Heap and resolution lemmas -/

theorem heapGet_heapSet_self (h : List (Nat × NodeObj)) (r : Nat) (o : NodeObj) :
    heapGet (heapSet h r o) r = some o := dictGet_dictSet_self h r o

theorem heapGet_heapSet_other (h : List (Nat × NodeObj)) (r q : Nat) (o : NodeObj)
    (hne : q ≠ r) : heapGet (heapSet h r o) q = heapGet h q :=
  dictGet_dictSet_other h r q o hne

/-- `_get_node_object_by_path` only ever touches the cache: heap, root,
next reference and clock are returned unchanged. -/
theorem resolve_frame (S : VFS) (p : Path) :
    (getNodeObjectByPath S p).2.heap = S.heap ∧
    (getNodeObjectByPath S p).2.rootRef = S.rootRef ∧
    (getNodeObjectByPath S p).2.nextRef = S.nextRef ∧
    (getNodeObjectByPath S p).2.clock = S.clock := by
  rcases hdg : dictGet S.cache (normalizePath p) with _ | r'
  · by_cases hroot : normalizePath p = pstr "/"
    · rw [hroot] at hdg
      simp [getNodeObjectByPath, hroot, hdg]
    · rcases hw : walkParts S.heap S.rootRef (splitParts (normalizePath p)) with _ | t <;>
        simp [getNodeObjectByPath, hdg, hroot, hw]
  · simp [getNodeObjectByPath, hdg]

/-- `_get_node_object_by_path` never removes or overwrites a cache
entry: every present entry survives with its value. -/
theorem resolve_cache_preserve (S : VFS) (p : Path) (k : Path) (r : Nat)
    (h : dictGet S.cache k = some r) :
    dictGet (getNodeObjectByPath S p).2.cache k = some r := by
  rcases hdg : dictGet S.cache (normalizePath p) with _ | r'
  · by_cases hroot : normalizePath p = pstr "/"
    · rw [hroot] at hdg
      simp only [getNodeObjectByPath, hroot, hdg]
      exact h
    · rcases hw : walkParts S.heap S.rootRef (splitParts (normalizePath p)) with _ | t
      · simp only [getNodeObjectByPath, hdg, if_neg hroot, hw]
        exact h
      · simp only [getNodeObjectByPath, hdg, if_neg hroot, hw]
        have hk : k ≠ normalizePath p := by
          intro e; rw [e, hdg] at h; cases h
        rw [dictGet_dictSet_other _ _ _ _ hk]
        exact h
  · simp only [getNodeObjectByPath, hdg]
    exact h

/-- C9: `read_file` is frame-preserving.  On any state and path it
changes no node's name, payload (children/content/size), `created` or
`modified` timestamp anywhere: on failure the heap is untouched, and on
success only the resolved file's `accessed` timestamp is refreshed;
the traversal cache can only gain entries, never lose or change one. -/
theorem c9_read_file_frame_property (S : VFS) (p : Path) :
    ((readFile S p).1 = none → (readFile S p).2.heap = S.heap) ∧
    (readFile S p).2.rootRef = S.rootRef ∧
    (readFile S p).2.nextRef = S.nextRef ∧
    (∀ k r, dictGet S.cache k = some r → dictGet (readFile S p).2.cache k = some r) ∧
    (∀ content, (readFile S p).1 = some content →
      ∃ fr o sz, heapGet S.heap fr = some o ∧ o.kind = NodeKind.file content sz ∧
        (readFile S p).2.heap = heapSet S.heap fr { o with accessed := S.clock } ∧
        ∀ q, q ≠ fr → heapGet (readFile S p).2.heap q = heapGet S.heap q) := by
  obtain ⟨hh, hr, hn, hc⟩ := resolve_frame S p
  have hcache := resolve_cache_preserve S p
  rcases hres : getNodeObjectByPath S p with ⟨node?, S₁⟩
  rw [hres] at hh hr hn hc
  have hcache' : ∀ k r, dictGet S.cache k = some r → dictGet S₁.cache k = some r := by
    intro k r hk
    have := hcache k r hk
    rw [hres] at this
    exact this
  rcases node? with _ | fr
  · simp only [readFile, hres]
    exact ⟨fun _ => hh, hr, hn, hcache', fun content hco => by cases hco⟩
  · rcases hobj : heapGet S₁.heap fr with _ | o
    · simp only [readFile, hres, hobj]
      exact ⟨fun _ => hh, hr, hn, hcache', fun content hco => by cases hco⟩
    · rcases hkind : o.kind with ⟨content, sz⟩ | ⟨ch⟩
      · simp only [readFile, hres, hobj, hkind, fileRead, tick]
        refine ⟨?_, hr, hn, hcache', ?_⟩
        · intro hco
          exact absurd hco (by simp)
        · intro content' hco
          obtain rfl : content = content' := by
            simpa using hco
          refine ⟨fr, o, sz, ?_, hkind, ?_, ?_⟩
          · rw [← hh]; exact hobj
          · rw [hh, hc]
            simp [hkind]
          · intro q hq
            rw [hh]
            exact heapGet_heapSet_other _ _ _ _ hq
      · simp only [readFile, hres, hobj, hkind]
        exact ⟨fun _ => hh, hr, hn, hcache', fun content hco => by cases hco⟩

end VFSModel

namespace VFSModel

/-- C6 (amended): `write_file` on a path that resolves to an existing
file succeeds and rewrites exactly that file object — content and size
replaced, created/modified/accessed refreshed from the clock — while
every other object, in particular every directory object and hence the
containing directory's `modified` timestamp, is left untouched.  Parent
timestamps are refreshed only by operations that change a child mapping
(`add_child`/`remove_child`/`delete`); `FileNode.write` never calls the
`update_modified_time` propagation helper. -/
theorem c6_amended_write_existing_updates_only_the_file (S : VFS) (p : Path)
    (c : List Nat) (fr : Nat) (o : NodeObj) (content0 : List Nat) (sz : Nat)
    (hres : (getNodeObjectByPath S p).1 = some fr)
    (hobj : heapGet S.heap fr = some o)
    (hkind : o.kind = NodeKind.file content0 sz) :
    ∃ S', writeFile S p c = .ok (true, S') ∧
      S'.heap = heapSet S.heap fr (writtenObj o c S.clock) ∧
      (∀ q, q ≠ fr → heapGet S'.heap q = heapGet S.heap q) ∧
      (∀ q o' ch, heapGet S.heap q = some o' → o'.kind = NodeKind.dir ch →
        heapGet S'.heap q = some o') := by
  obtain ⟨hh, hr, hn, hc⟩ := resolve_frame S p
  rcases hres' : getNodeObjectByPath S p with ⟨node?, S₁⟩
  rw [hres'] at hres hh hr hn hc
  obtain rfl : node? = some fr := hres
  replace hh : S₁.heap = S.heap := hh
  replace hc : S₁.clock = S.clock := hc
  have hobj₁ : heapGet S₁.heap fr = some o := by
    rw [hh]; exact hobj
  refine ⟨fileWrite S₁ fr o c, ?_, ?_, ?_, ?_⟩
  · simp only [writeFile, hres', hobj₁, hkind]
  · simp only [fileWrite, tick, hh, hc, writtenObj]
  · intro q hq
    simp only [fileWrite, tick, hh]
    exact heapGet_heapSet_other _ _ _ _ hq
  · intro q o' ch hq hq'
    by_cases hqf : q = fr
    · subst hqf
      rw [hq] at hobj
      obtain rfl : o' = o := by injection hobj
      rw [hq'] at hkind
      cases hkind
    · simp only [fileWrite, tick, hh]
      rw [heapGet_heapSet_other _ _ _ _ hqf]
      exact hq

/-- Witness for the amended C6 theorem at the concrete state
`stFileDF` (`/d` holding file `/d/f`): the hypotheses hold there and
the conclusion specialises to the directory object of `/d` (reference
1) being untouched by the write. -/
theorem c6_amended_write_existing_updates_only_the_file_witness :
    ∃ S', writeFile stFileDF (pstr "/d/f") [105] = .ok (true, S') ∧
      S'.heap = heapSet stFileDF.heap 2
        (writtenObj ⟨pstr "f", some 1, 3, 3, 3, NodeKind.file [104] 1⟩ [105]
          stFileDF.clock) ∧
      (∀ q, q ≠ 2 → heapGet S'.heap q = heapGet stFileDF.heap q) ∧
      (∀ q o' ch, heapGet stFileDF.heap q = some o' → o'.kind = NodeKind.dir ch →
        heapGet S'.heap q = some o') :=
  c6_amended_write_existing_updates_only_the_file stFileDF (pstr "/d/f") [105] 2
    ⟨pstr "f", some 1, 3, 3, 3, NodeKind.file [104] 1⟩ [104] 1
    (by decide) (by decide) (by decide)

/-- Witness for the C9 frame theorem at a concrete state: reading
`/a/b` succeeds and rewrites exactly the file object's accessed time. -/
theorem c9_read_file_frame_property_witness :
    ∃ fr o sz, heapGet stFileAB.heap fr = some o ∧
      o.kind = NodeKind.file [120] sz ∧
      (readFile stFileAB (pstr "/a/b")).2.heap =
        heapSet stFileAB.heap fr { o with accessed := stFileAB.clock } ∧
      ∀ q, q ≠ fr →
        heapGet (readFile stFileAB (pstr "/a/b")).2.heap q = heapGet stFileAB.heap q :=
  (c9_read_file_frame_property stFileAB (pstr "/a/b")).2.2.2.2 [120] (by decide)

end VFSModel

namespace VFSModel

/-! ### UTF-8 codec lemmas -/

theorem utf8EncodeChar_one (b : Nat) (h : b < 128) : utf8EncodeChar b = [b] := by
  simp [utf8EncodeChar, h]

theorem utf8EncodeChar_two (b b1 : Nat) (h : 194 ≤ b) (h' : b < 224)
    (c1 : 128 ≤ b1) (c2 : b1 < 192) :
    utf8EncodeChar ((b - 192) * 64 + (b1 - 128)) = [b, b1] := by
  have hge : ¬((b - 192) * 64 + (b1 - 128) < 128) := by omega
  have hlt : (b - 192) * 64 + (b1 - 128) < 2048 := by omega
  simp only [utf8EncodeChar, if_neg hge, if_pos hlt, List.cons.injEq, and_true]
  refine ⟨by omega, by omega⟩

theorem utf8EncodeChar_three (b b1 b2 : Nat) (h : 224 ≤ b) (h' : b < 240)
    (c1 : 128 ≤ b1) (c2 : b1 < 192) (d1 : 128 ≤ b2) (d2 : b2 < 192)
    (hov : b ≠ 224 ∨ 160 ≤ b1) :
    utf8EncodeChar ((b - 224) * 4096 + (b1 - 128) * 64 + (b2 - 128)) = [b, b1, b2] := by
  have hge : ¬((b - 224) * 4096 + (b1 - 128) * 64 + (b2 - 128) < 128) := by omega
  have hge2 : ¬((b - 224) * 4096 + (b1 - 128) * 64 + (b2 - 128) < 2048) := by omega
  have hlt : (b - 224) * 4096 + (b1 - 128) * 64 + (b2 - 128) < 65536 := by omega
  simp only [utf8EncodeChar, if_neg hge, if_neg hge2, if_pos hlt, List.cons.injEq,
    and_true]
  refine ⟨by omega, by omega, by omega⟩

theorem utf8EncodeChar_four (b b1 b2 b3 : Nat) (h : 240 ≤ b) (h' : b < 245)
    (c1 : 128 ≤ b1) (c2 : b1 < 192) (d1 : 128 ≤ b2) (d2 : b2 < 192)
    (e1 : 128 ≤ b3) (e2 : b3 < 192) (hov : b ≠ 240 ∨ 144 ≤ b1) :
    utf8EncodeChar
      ((b - 240) * 262144 + (b1 - 128) * 4096 + (b2 - 128) * 64 + (b3 - 128)) =
      [b, b1, b2, b3] := by
  have hge : ¬((b - 240) * 262144 + (b1 - 128) * 4096 + (b2 - 128) * 64 +
      (b3 - 128) < 128) := by omega
  have hge2 : ¬((b - 240) * 262144 + (b1 - 128) * 4096 + (b2 - 128) * 64 +
      (b3 - 128) < 2048) := by omega
  have hge3 : ¬((b - 240) * 262144 + (b1 - 128) * 4096 + (b2 - 128) * 64 +
      (b3 - 128) < 65536) := by omega
  simp only [utf8EncodeChar, if_neg hge, if_neg hge2, if_neg hge3, List.cons.injEq,
    and_true]
  refine ⟨by omega, by omega, by omega, by omega⟩

@[simp] theorem utf8Encode_nil : utf8Encode [] = [] := rfl

@[simp] theorem utf8Encode_cons (c : Nat) (s : List Nat) :
    utf8Encode (c :: s) = utf8EncodeChar c ++ utf8Encode s := by
  simp [utf8Encode]

/-- Inverting one decode step: the decoded code point re-encodes to
exactly the consumed bytes. -/
theorem utf8DecodeChar1_inv (b : Nat) (rest : List Nat) (c : Nat) (r : List Nat)
    (h : utf8DecodeChar1 b rest = some (c, r)) :
    utf8EncodeChar c ++ r = b :: rest := by
  by_cases h1 : b < 128
  · simp only [utf8DecodeChar1, if_pos h1, Option.some.injEq, Prod.mk.injEq] at h
    obtain ⟨rfl, rfl⟩ := h
    rw [utf8EncodeChar_one b h1]
    rfl
  · by_cases h2 : b < 194
    · simp only [utf8DecodeChar1, if_neg h1, if_pos h2] at h
      cases h
    · by_cases h3 : b < 224
      · rcases rest with _ | ⟨b1, r2⟩
        · simp only [utf8DecodeChar1, if_neg h1, if_neg h2, if_pos h3] at h
          cases h
        · simp only [utf8DecodeChar1, if_neg h1, if_neg h2, if_pos h3] at h
          by_cases hcb : contB b1
          · rw [if_pos hcb] at h
            simp only [Option.some.injEq, Prod.mk.injEq] at h
            obtain ⟨rfl, rfl⟩ := h
            simp only [contB, Bool.and_eq_true, decide_eq_true_eq] at hcb
            rw [utf8EncodeChar_two b b1 (by omega) h3 hcb.1 hcb.2]
            rfl
          · rw [if_neg hcb] at h
            cases h
      · by_cases h4 : b < 240
        · rcases rest with _ | ⟨c1, _ | ⟨c2, r3⟩⟩
          · simp only [utf8DecodeChar1, if_neg h1, if_neg h2, if_neg h3, if_pos h4] at h
            cases h
          · simp only [utf8DecodeChar1, if_neg h1, if_neg h2, if_neg h3, if_pos h4] at h
            cases h
          · simp only [utf8DecodeChar1, if_neg h1, if_neg h2, if_neg h3, if_pos h4] at h
            by_cases hcb : contB c1 && contB c2 &&
                (decide (b ≠ 224) || decide (160 ≤ c1)) &&
                (decide (b ≠ 237) || decide (c1 < 160))
            · rw [if_pos hcb] at h
              simp only [Option.some.injEq, Prod.mk.injEq] at h
              obtain ⟨rfl, rfl⟩ := h
              simp only [contB, Bool.and_eq_true, Bool.or_eq_true,
                decide_eq_true_eq] at hcb
              obtain ⟨⟨⟨⟨hc1a, hc1b⟩, hc2a, hc2b⟩, hov⟩, _⟩ := hcb
              rw [utf8EncodeChar_three b c1 c2 (by omega) h4 hc1a hc1b hc2a hc2b hov]
              rfl
            · rw [if_neg hcb] at h
              cases h
        · by_cases h5 : b < 245
          · rcases rest with _ | ⟨d1, _ | ⟨d2, _ | ⟨d3, r4⟩⟩⟩
            · simp only [utf8DecodeChar1, if_neg h1, if_neg h2, if_neg h3, if_neg h4,
                if_pos h5] at h
              cases h
            · simp only [utf8DecodeChar1, if_neg h1, if_neg h2, if_neg h3, if_neg h4,
                if_pos h5] at h
              cases h
            · simp only [utf8DecodeChar1, if_neg h1, if_neg h2, if_neg h3, if_neg h4,
                if_pos h5] at h
              cases h
            · simp only [utf8DecodeChar1, if_neg h1, if_neg h2, if_neg h3, if_neg h4,
                if_pos h5] at h
              by_cases hcb : contB d1 && contB d2 && contB d3 &&
                  (decide (b ≠ 240) || decide (144 ≤ d1)) &&
                  (decide (b ≠ 244) || decide (d1 < 144))
              · rw [if_pos hcb] at h
                simp only [Option.some.injEq, Prod.mk.injEq] at h
                obtain ⟨rfl, rfl⟩ := h
                simp only [contB, Bool.and_eq_true, Bool.or_eq_true,
                  decide_eq_true_eq] at hcb
                obtain ⟨⟨⟨⟨⟨hd1a, hd1b⟩, hd2a, hd2b⟩, hd3a, hd3b⟩, hov⟩, _⟩ := hcb
                rw [utf8EncodeChar_four b d1 d2 d3 (by omega) h5 hd1a hd1b hd2a hd2b
                  hd3a hd3b hov]
                rfl
              · rw [if_neg hcb] at h
                cases h
          · simp only [utf8DecodeChar1, if_neg h1, if_neg h2, if_neg h3, if_neg h4,
              if_neg h5] at h
            cases h

/-- The decode loop inverts encoding for any fuel value. -/
theorem utf8Encode_of_utf8DecodeF :
    ∀ (fuel : Nat) (bs s : List Nat), utf8DecodeF fuel bs = some s →
      utf8Encode s = bs := by
  intro fuel
  induction fuel with
  | zero =>
    intro bs s h
    rcases bs with _ | ⟨b, rest⟩
    · simp only [utf8DecodeF, Option.some.injEq] at h
      subst h
      rfl
    · simp [utf8DecodeF] at h
  | succ n ih =>
    intro bs s h
    rcases bs with _ | ⟨b, rest⟩
    · simp only [utf8DecodeF, Option.some.injEq] at h
      subst h
      rfl
    · simp only [utf8DecodeF] at h
      rcases hc : utf8DecodeChar1 b rest with _ | ⟨cp, r⟩
      · simp [hc] at h
      · rcases hd : utf8DecodeF n r with _ | s'
        · simp [hc, hd] at h
        · simp only [hc] at h
          simp [hd] at h
          obtain rfl : cp :: s' = s := h
          rw [utf8Encode_cons, ih r s' hd]
          exact utf8DecodeChar1_inv b rest cp r hc

/-- Strict decoding inverts encoding: any byte string the decoder
accepts is reproduced exactly by re-encoding the decoded text.  (This
is what makes `from_dict` restore the exact content bytes that
`to_dict` decoded.) -/
theorem utf8Encode_of_utf8Decode (bs s : List Nat) (h : utf8Decode bs = some s) :
    utf8Encode s = bs :=
  utf8Encode_of_utf8DecodeF bs.length bs s h

end VFSModel

namespace VFSModel

/-! ### Serialization success analysis (claim C10) -/

theorem exOk_ne_error {a : Type} (x : Except PyErr a) (hx : exOk x = true)
    (e : PyErr) : x ≠ .error e := by
  intro hcontra
  rw [hcontra] at hx
  cases hx

theorem serChildren_ok_valid (h : List (Nat × NodeObj)) (fuel : Nat)
    (IH : ∀ r d, toDictNode h fuel r = .ok d →
      ∀ bs ∈ specFileContents h fuel r, (utf8Decode bs).isSome = true) :
    ∀ ch cs, serChildrenWith h (fun cr => toDictNode h fuel cr) ch = .ok cs →
      ∀ bs ∈ specFileContentsWith h (specFileContents h fuel) ch,
        (utf8Decode bs).isSome = true := by
  intro ch
  induction ch with
  | nil =>
    intro cs hok bs hbs
    simp [specFileContentsWith] at hbs
  | cons cc rest ihl =>
    obtain ⟨n, cr⟩ := cc
    intro cs hok bs hbs
    simp only [serChildrenWith] at hok
    rcases hg : heapGet h cr with _ | cobj
    · simp only [hg] at hok
      cases hok
    · simp only [hg] at hok
      rcases hk : cobj.kind with ⟨content, size⟩ | ⟨ch2⟩
      · simp only [hk] at hok
        simp only [specFileContentsWith, hg, hk, List.mem_cons] at hbs
        rcases hd : utf8Decode content with _ | cps
        · simp only [decodeBytes, hd] at hok
          cases hok
        · simp only [decodeBytes, hd] at hok
          rcases hrest : serChildrenWith h (fun cr => toDictNode h fuel cr) rest
            with e | tail
          · simp only [hrest] at hok
            cases hok
          · rcases hbs with rfl | hbs
            · simp [hd]
            · exact ihl tail hrest bs hbs
      · simp only [hk] at hok
        simp only [specFileContentsWith, hg, hk, List.mem_append] at hbs
        rcases ht : toDictNode h fuel cr with e | d
        · simp only [ht] at hok
          cases hok
        · simp only [ht] at hok
          rcases hrest : serChildrenWith h (fun cr => toDictNode h fuel cr) rest
            with e | tail
          · simp only [hrest] at hok
            cases hok
          · rcases hbs with hbs | hbs
            · exact IH cr d ht bs hbs
            · exact ihl tail hrest bs hbs

theorem toDictNode_ok_valid (h : List (Nat × NodeObj)) :
    ∀ fuel r d, toDictNode h fuel r = .ok d →
      ∀ bs ∈ specFileContents h fuel r, (utf8Decode bs).isSome = true := by
  intro fuel
  induction fuel with
  | zero =>
    intro r d hok
    simp [toDictNode] at hok
  | succ n ih =>
    intro r d hok bs hbs
    simp only [toDictNode] at hok
    rcases hg : heapGet h r with _ | o
    · simp only [hg] at hok
      cases hok
    · simp only [hg] at hok
      rcases hk : o.kind with ⟨content, size⟩ | ⟨ch⟩
      · simp only [hk] at hok
        rcases hd : utf8Decode content with _ | cps
        · simp only [hd] at hok
          cases hok
        · simp only [specFileContents, hg, hk, List.mem_singleton] at hbs
          subst hbs
          simp [hd]
      · simp only [hk] at hok
        rcases hs : serChildrenWith h (fun cr => toDictNode h n cr) ch with e | cs
        · simp only [hs] at hok
          cases hok
        · simp only [specFileContents, hg, hk] at hbs
          exact serChildren_ok_valid h n ih ch cs hs bs hbs

theorem serChildren_err (h : List (Nat × NodeObj)) (fuel : Nat)
    (IH : ∀ r e, toDictNode h fuel r = .error e → e = .modelStuck ∨
      (e = .unicodeDecodeError ∧
        ∃ bs ∈ specFileContents h fuel r, utf8Decode bs = none)) :
    ∀ ch e, serChildrenWith h (fun cr => toDictNode h fuel cr) ch = .error e →
      e = .modelStuck ∨ (e = .unicodeDecodeError ∧
        ∃ bs ∈ specFileContentsWith h (specFileContents h fuel) ch,
          utf8Decode bs = none) := by
  intro ch
  induction ch with
  | nil =>
    intro e hok
    simp [serChildrenWith] at hok
  | cons cc rest ihl =>
    obtain ⟨n, cr⟩ := cc
    intro e hok
    simp only [serChildrenWith] at hok
    rcases hg : heapGet h cr with _ | cobj
    · simp only [hg] at hok
      left
      obtain rfl : PyErr.modelStuck = e := by injection hok
      rfl
    · simp only [hg] at hok
      rcases hk : cobj.kind with ⟨content, size⟩ | ⟨ch2⟩
      · simp only [hk] at hok
        rcases hd : utf8Decode content with _ | cps
        · simp only [decodeBytes, hd] at hok
          obtain rfl : PyErr.unicodeDecodeError = e := by injection hok
          right
          refine ⟨rfl, content, ?_, hd⟩
          simp [specFileContentsWith, hg, hk]
        · simp only [decodeBytes, hd] at hok
          rcases hrest : serChildrenWith h (fun cr => toDictNode h fuel cr) rest
            with e' | tail
          · simp only [hrest] at hok
            obtain rfl : e' = e := by injection hok
            rcases ihl e' hrest with rfl | ⟨rfl, bs, hmem, hnone⟩
            · exact Or.inl rfl
            · right
              refine ⟨rfl, bs, ?_, hnone⟩
              simp only [specFileContentsWith, hg, hk, List.mem_cons]
              exact Or.inr hmem
          · simp only [hrest] at hok
            cases hok
      · simp only [hk] at hok
        rcases ht : toDictNode h fuel cr with e' | d
        · simp only [ht] at hok
          obtain rfl : e' = e := by injection hok
          rcases IH cr e' ht with rfl | ⟨rfl, bs, hmem, hnone⟩
          · exact Or.inl rfl
          · right
            refine ⟨rfl, bs, ?_, hnone⟩
            simp only [specFileContentsWith, hg, hk, List.mem_append]
            exact Or.inl hmem
        · simp only [ht] at hok
          rcases hrest : serChildrenWith h (fun cr => toDictNode h fuel cr) rest
            with e' | tail
          · simp only [hrest] at hok
            obtain rfl : e' = e := by injection hok
            rcases ihl e' hrest with rfl | ⟨rfl, bs, hmem, hnone⟩
            · exact Or.inl rfl
            · right
              refine ⟨rfl, bs, ?_, hnone⟩
              simp only [specFileContentsWith, hg, hk, List.mem_append]
              exact Or.inr hmem
          · simp only [hrest] at hok
            cases hok

theorem toDictNode_err (h : List (Nat × NodeObj)) :
    ∀ fuel r e, toDictNode h fuel r = .error e → e = .modelStuck ∨
      (e = .unicodeDecodeError ∧
        ∃ bs ∈ specFileContents h fuel r, utf8Decode bs = none) := by
  intro fuel
  induction fuel with
  | zero =>
    intro r e hok
    left
    simp only [toDictNode] at hok
    obtain rfl : PyErr.modelStuck = e := by injection hok
    rfl
  | succ n ih =>
    intro r e hok
    simp only [toDictNode] at hok
    rcases hg : heapGet h r with _ | o
    · simp only [hg] at hok
      left
      obtain rfl : PyErr.modelStuck = e := by injection hok
      rfl
    · simp only [hg] at hok
      rcases hk : o.kind with ⟨content, size⟩ | ⟨ch⟩
      · simp only [hk] at hok
        rcases hd : utf8Decode content with _ | cps
        · simp only [hd] at hok
          obtain rfl : PyErr.unicodeDecodeError = e := by injection hok
          right
          refine ⟨rfl, content, ?_, hd⟩
          simp [specFileContents, hg, hk]
        · simp only [hd] at hok
          cases hok
      · simp only [hk] at hok
        rcases hs : serChildrenWith h (fun cr => toDictNode h n cr) ch with e' | cs
        · simp only [hs] at hok
          obtain rfl : e' = e := by injection hok
          rcases serChildren_err h n ih ch e' hs with rfl | ⟨rfl, bs, hmem, hnone⟩
          · exact Or.inl rfl
          · right
            refine ⟨rfl, bs, ?_, hnone⟩
            simpa [specFileContents, hg, hk] using hmem
        · simp only [hs] at hok
          cases hok

end VFSModel

namespace VFSModel

/-- C10: serialization's decode-error branch is unreachable exactly for
trees in which every file content (as collected by the traversal) is a
valid UTF-8 byte sequence, and for accepted byte strings the
encode/decode pair used by `to_dict`/`from_dict` preserves the bytes
exactly.  The hypothesis excludes only the embedding's fuel/dangling
artefact (`modelStuck`), which the Python source cannot produce. -/
theorem c10_serialization_utf8 (h : List (Nat × NodeObj)) (fuel r : Nat)
    (hns : toDictNode h fuel r ≠ .error .modelStuck) :
    (exOk (toDictNode h fuel r) = true ↔
      ∀ bs ∈ specFileContents h fuel r, (utf8Decode bs).isSome = true) ∧
    (∀ bs s, utf8Decode bs = some s → utf8Encode s = bs) := by
  constructor
  · constructor
    · intro hok bs hbs
      rcases hres : toDictNode h fuel r with e | d
      · rw [hres] at hok
        cases hok
      · exact toDictNode_ok_valid h fuel r d hres bs hbs
    · intro hall
      rcases hres : toDictNode h fuel r with e | d
      · exfalso
        rcases toDictNode_err h fuel r e hres with rfl | ⟨rfl, bs, hmem, hnone⟩
        · exact hns hres
        · have hv := hall bs hmem
          rw [hnone] at hv
          cases hv
      · rfl
  · intro bs s hd
    exact utf8Encode_of_utf8Decode bs s hd

/-- Witness for C10 at the concrete tree `stFileF` (root holding file
`/f` with ASCII content): the serializer succeeds and the equivalence
holds there. -/
theorem c10_serialization_utf8_witness :
    (exOk (toDictNode stFileF.heap (stFileF.heap.length + 1) stFileF.rootRef) = true ↔
      ∀ bs ∈ specFileContents stFileF.heap (stFileF.heap.length + 1) stFileF.rootRef,
        (utf8Decode bs).isSome = true) ∧
    (∀ bs s, utf8Decode bs = some s → utf8Encode s = bs) :=
  c10_serialization_utf8 stFileF.heap (stFileF.heap.length + 1) stFileF.rootRef
    (exOk_ne_error _ (by decide) _)

end VFSModel

namespace VFSModel

/-! ### Canonical-path lemmas -/

theorem dictGet_mem {κ α : Type} [DecidableEq κ] (d : List (κ × α)) (k : κ) (v : α)
    (h : dictGet d k = some v) : (k, v) ∈ d := by
  induction d with
  | nil => cases h
  | cons kv rest ih =>
    obtain ⟨k1, v1⟩ := kv
    by_cases hk : k1 = k
    · simp only [dictGet, if_pos hk, Option.some.injEq] at h
      subst hk
      subst h
      exact List.mem_cons_self _ _
    · simp only [dictGet, if_neg hk] at h
      exact List.mem_cons_of_mem _ (ih h)

theorem mem_dictSet {κ α : Type} [DecidableEq κ] (d : List (κ × α)) (k : κ) (v : α)
    (x : κ × α) (h : x ∈ dictSet d k v) : x ∈ d ∨ x = (k, v) := by
  induction d with
  | nil =>
    simp only [dictSet, List.mem_singleton] at h
    exact Or.inr h
  | cons kv rest ih =>
    by_cases hk : kv.1 = k
    · simp only [dictSet, if_pos hk, List.mem_cons] at h
      rcases h with rfl | h
      · exact Or.inr (by rw [hk])
      · exact Or.inl (List.mem_cons_of_mem _ h)
    · simp only [dictSet, if_neg hk, List.mem_cons] at h
      rcases h with rfl | h
      · exact Or.inl (List.mem_cons_self _ _)
      · rcases ih h with h' | h'
        · exact Or.inl (List.mem_cons_of_mem _ h')
        · exact Or.inr h'

@[simp] theorem joinSegs_nil : joinSegs [] = [] := rfl

theorem joinSegs_cons (s : Path) (rest : List Path) :
    joinSegs (s :: rest) = '/' :: (s ++ joinSegs rest) := by
  simp [joinSegs]

theorem joinSegs_concat (xs : List Path) (y : Path) :
    joinSegs (xs ++ [y]) = joinSegs xs ++ '/' :: y := by
  simp [joinSegs]

theorem joinSegs_ne_nil (segs : List Path) (h : segs ≠ []) : joinSegs segs ≠ [] := by
  rcases segs with _ | ⟨s, rest⟩
  · exact absurd rfl h
  · rw [joinSegs_cons]
    exact List.cons_ne_nil _ _

theorem headIs_joinSegs (segs : List Path) (h : segs ≠ []) :
    headIs '/' (joinSegs segs) = true := by
  rcases segs with _ | ⟨s, rest⟩
  · exact absurd rfl h
  · rw [joinSegs_cons]
    rfl

theorem lastIs_of_not_mem (c : Char) (y : Path) (h : c ∉ y) : lastIs c y = false := by
  induction y with
  | nil => rfl
  | cons x xs ih =>
    rcases xs with _ | ⟨x', xs'⟩
    · simp only [lastIs, List.getLast?_singleton]
      simp only [List.mem_singleton] at h
      simp [Ne.symm h]
    · have hx : c ∉ x' :: xs' := fun hc => h (List.mem_cons_of_mem _ hc)
      have := ih hx
      simpa [lastIs, List.getLast?_cons_cons] using this

theorem lastIs_append (c : Char) (l y : Path) (h : y ≠ []) :
    lastIs c (l ++ y) = lastIs c y := by
  induction l with
  | nil => rfl
  | cons x xs ih =>
    have hne : xs ++ y ≠ [] := by
      intro hc
      rcases List.append_eq_nil.mp hc with ⟨_, h2⟩
      exact h h2
    rcases he : xs ++ y with _ | ⟨z, zs⟩
    · exact absurd he hne
    · simp only [List.cons_append, lastIs, he, List.getLast?_cons_cons]
      have := ih
      rw [he] at this
      simpa [lastIs] using this

theorem lastIs_joinSegs (segs : List Path) (hne : segs ≠ [])
    (hok : ∀ s ∈ segs, SegOk s) : lastIs '/' (joinSegs segs) = false := by
  induction segs with
  | nil => exact absurd rfl hne
  | cons s rest ih =>
    rcases rest with _ | ⟨r, rest'⟩
    · rw [joinSegs_cons]
      obtain ⟨hs1, hs2⟩ := hok s (List.mem_cons_self _ _)
      have : lastIs '/' s = false := lastIs_of_not_mem _ _ hs2
      calc lastIs '/' ('/' :: (s ++ joinSegs [])) = lastIs '/' s := by
            rw [joinSegs_nil, List.append_nil]
            rcases s with _ | ⟨c, cs⟩
            · exact absurd rfl hs1
            · simp [lastIs, List.getLast?_cons_cons]
        _ = false := this
    · rw [joinSegs_cons]
      have hjoin : joinSegs (r :: rest') ≠ [] := joinSegs_ne_nil _ (List.cons_ne_nil _ _)
      have ihr := ih (List.cons_ne_nil _ _) (fun t ht => hok t (List.mem_cons_of_mem _ ht))
      calc lastIs '/' ('/' :: (s ++ joinSegs (r :: rest')))
          = lastIs '/' (('/' :: s) ++ joinSegs (r :: rest')) := by simp
        _ = lastIs '/' (joinSegs (r :: rest')) := lastIs_append _ _ _ hjoin
        _ = false := ihr

theorem normalizePath_joinSegs (segs : List Path) (hne : segs ≠ [])
    (hok : ∀ s ∈ segs, SegOk s) :
    normalizePath (joinSegs segs) = joinSegs segs := by
  have h1 : joinSegs segs ≠ [] := joinSegs_ne_nil _ hne
  have h2 : headIs '/' (joinSegs segs) = true := headIs_joinSegs _ hne
  have h3 : lastIs '/' (joinSegs segs) = false := lastIs_joinSegs _ hne hok
  simp [normalizePath, h1, h2, h3]

theorem lastSplit_not_mem (c : Char) (s : Path) (h : c ∉ s) :
    lastSplit c s = none := by
  induction s with
  | nil => rfl
  | cons x xs ih =>
    have hx : c ∉ xs := fun hc => h (List.mem_cons_of_mem _ hc)
    have hxc : ¬x = c := fun hc => h (by rw [hc]; exact List.mem_cons_self _ _)
    simp [lastSplit, ih hx, hxc]

theorem lastSplit_append_last (c : Char) (b a : Path) (h : c ∉ a) :
    lastSplit c (b ++ c :: a) = some (b, a) := by
  induction b with
  | nil => simp [lastSplit, lastSplit_not_mem c a h]
  | cons x xs ih => simp [lastSplit, ih]

theorem joinSegs_length (segs : List Path) :
    (joinSegs segs).length = segs.length + (segs.map List.length).sum := by
  induction segs with
  | nil => rfl
  | cons s rest ih =>
    rw [joinSegs_cons]
    simp [ih]
    omega

theorem joinSegs_concat_ne_root (xs : List Path) (y : Path) (hy : SegOk y) :
    joinSegs (xs ++ [y]) ≠ pstr "/" := by
  intro hc
  have := congrArg List.length hc
  rw [joinSegs_length] at this
  simp [pstr] at this
  obtain ⟨h1, -⟩ := hy
  have hylen : 0 < y.length := List.length_pos.mpr h1
  have hmem : y.length ∈ ((xs ++ [y]).map List.length) := by
    simp
  have hsum : y.length ≤ ((xs ++ [y]).map List.length).sum :=
    List.single_le_sum (fun i _ => Nat.zero_le i) _ hmem
  omega

theorem joinSegs_concat_ne_parent (xs : List Path) (y : Path) :
    joinSegs xs ≠ joinSegs (xs ++ [y]) := by
  intro hc
  have := congrArg List.length hc
  rw [joinSegs_length, joinSegs_length] at this
  simp at this
  omega

theorem root_ne_joinSegs_concat (xs : List Path) (y : Path) (hy : SegOk y) :
    pstr "/" ≠ joinSegs (xs ++ [y]) :=
  fun hc => joinSegs_concat_ne_root xs y hy hc.symm

theorem not_mem_joinSegs (c : Char) (segs : List Path) (hc : c ≠ '/')
    (h : ∀ s ∈ segs, c ∉ s) : c ∉ joinSegs segs := by
  induction segs with
  | nil => simp
  | cons s rest ih =>
    rw [joinSegs_cons]
    simp only [List.mem_cons, List.mem_append]
    push_neg
    exact ⟨hc, h s (List.mem_cons_self _ _),
      ih (fun t ht => h t (List.mem_cons_of_mem _ ht))⟩

end VFSModel

namespace VFSModel

/-! ### Splitting canonical paths -/

theorem sSplit_not_mem (c : Char) (s : Path) (h : c ∉ s) : sSplit c s = [s] := by
  induction s with
  | nil => rfl
  | cons x xs ih =>
    have hxc : ¬x = c := fun hc => h (by rw [hc]; exact List.mem_cons_self _ _)
    have hxs : c ∉ xs := fun hc => h (List.mem_cons_of_mem _ hc)
    simp [sSplit, hxc, ih hxs]

theorem sSplit_append_sep (c : Char) (s t : Path) (h : c ∉ s) :
    sSplit c (s ++ c :: t) = s :: sSplit c t := by
  induction s with
  | nil => simp [sSplit]
  | cons x xs ih =>
    have hxc : ¬x = c := fun hc => h (by rw [hc]; exact List.mem_cons_self _ _)
    have hxs : c ∉ xs := fun hc => h (List.mem_cons_of_mem _ hc)
    simp only [List.cons_append, sSplit, if_neg hxc]
    rw [show xs.append (c :: t) = xs ++ (c :: t) from rfl, ih hxs]

theorem dropWhile_reverse_of_lastIs (c : Char) (l : Path) (h : lastIs c l = false) :
    l.reverse.dropWhile (· = c) = l.reverse := by
  rcases hr : l.reverse with _ | ⟨x, xs⟩
  · rfl
  · have hx : l.getLast? = some x := by
      rw [← List.head?_reverse, hr]
      rfl
    simp only [lastIs, hx] at h
    simp only [decide_eq_false_iff_not] at h
    simp [List.dropWhile_cons, h]

theorem stripChar_of_canonical (s : Path) (hhead : ∀ x, s.head? = some x → x ≠ '/')
    (hlast : lastIs '/' s = false) :
    stripChar '/' ('/' :: s) = s := by
  have h1 : ('/' :: s).dropWhile (· = '/') = s.dropWhile (· = '/') := by
    simp [List.dropWhile_cons]
  have h2 : s.dropWhile (· = '/') = s := by
    rcases s with _ | ⟨x, xs⟩
    · rfl
    · have := hhead x rfl
      simp [List.dropWhile_cons, this]
  rw [stripChar, h1, h2, dropWhile_reverse_of_lastIs _ _ hlast, List.reverse_reverse]

theorem sSplit_join (s : Path) (rest : List Path)
    (hok : ∀ u ∈ s :: rest, SegOk u) :
    sSplit '/' (s ++ joinSegs rest) = s :: rest := by
  induction rest generalizing s with
  | nil =>
    rw [joinSegs_nil, List.append_nil]
    exact sSplit_not_mem '/' s (hok s (List.mem_cons_self _ _)).2
  | cons r rest' ih =>
    rw [joinSegs_cons, ← List.cons_append]
    have hs : '/' ∉ s := (hok s (List.mem_cons_self _ _)).2
    calc sSplit '/' (s ++ '/' :: (r ++ joinSegs rest'))
        = s :: sSplit '/' (r ++ joinSegs rest') := sSplit_append_sep _ _ _ hs
      _ = s :: r :: rest' := by
          rw [ih r (fun u hu => hok u (List.mem_cons_of_mem _ hu))]

theorem splitParts_joinSegs (segs : List Path) (hne : segs ≠ [])
    (hok : ∀ u ∈ segs, SegOk u) :
    splitParts (joinSegs segs) = segs := by
  rcases segs with _ | ⟨s, rest⟩
  · exact absurd rfl hne
  · rw [splitParts, joinSegs_cons]
    have hhead : ∀ x, (s ++ joinSegs rest).head? = some x → x ≠ '/' := by
      intro x hx
      obtain ⟨hs1, hs2⟩ := hok s (List.mem_cons_self _ _)
      rcases s with _ | ⟨c0, s'⟩
      · exact absurd rfl hs1
      · simp only [List.cons_append, List.head?_cons, Option.some.injEq] at hx
        subst hx
        intro hc
        exact hs2 (by rw [hc]; exact List.mem_cons_self _ _)
    have hlast : lastIs '/' (s ++ joinSegs rest) = false := by
      have := lastIs_joinSegs (s :: rest) (List.cons_ne_nil _ _) hok
      rw [joinSegs_cons] at this
      rcases hj : s ++ joinSegs rest with _ | ⟨z, zs⟩
      · rfl
      · rw [hj] at this
        simpa [lastIs, List.getLast?_cons_cons] using this
    rw [stripChar_of_canonical _ hhead hlast]
    exact sSplit_join s rest hok

end VFSModel

namespace VFSModel

/-! ### Create-operation lemmas (claim C7) -/

theorem beforeLastSlash_concat (xs : List Path) (y : Path) (hy : '/' ∉ y)
    (hnl : '\n' ∉ joinSegs (xs ++ [y])) :
    beforeLastSlash (joinSegs (xs ++ [y])) = some (joinSegs xs) := by
  rw [beforeLastSlash, sSplit_not_mem _ _ hnl, joinSegs_concat]
  simp [beforeLastSlashLines, lastSplit_append_last '/' _ _ hy]

theorem afterLastSlash_concat (xs : List Path) (y : Path) (hy : SegOk y)
    (hynl : '\n' ∉ y) :
    afterLastSlash (joinSegs (xs ++ [y])) = some y := by
  have hlast : lastIs '\n' (joinSegs (xs ++ [y])) = false := by
    rw [joinSegs_concat, show joinSegs xs ++ '/' :: y = (joinSegs xs ++ ['/']) ++ y by simp,
      lastIs_append _ _ _ hy.1]
    exact lastIs_of_not_mem _ _ hynl
  have h1 : chopNl (joinSegs xs ++ '/' :: y) = joinSegs xs ++ '/' :: y := by
    rw [← joinSegs_concat, chopNl, hlast]
    rfl
  simp only [afterLastSlash, joinSegs_concat]
  rw [h1, lastSplit_append_last '/' _ _ hy.2]
  simp [hynl]

/-- `_get_parent_directory_and_name` on a canonical, newline-free path
`/xs…/y` returns the resolved parent directory and the leaf `y`. -/
theorem gpdan_concat (S : VFS) (xs : List Path) (y : Path)
    (hxs : ∀ s ∈ xs, SegOk s) (hy : SegOk y)
    (hxnl : ∀ s ∈ xs, '\n' ∉ s) (hynl : '\n' ∉ y) (pr : Nat) (S₁ : VFS)
    (hres : getNodeObjectByPath S (joinSegs xs) = (some pr, S₁))
    (hdir : isDirRef S₁ pr = true) :
    getParentDirectoryAndName S (joinSegs (xs ++ [y])) = .ok (some pr, y, S₁) := by
  have hok : ∀ s ∈ xs ++ [y], SegOk s := by
    intro s hs
    rcases List.mem_append.mp hs with hs | hs
    · exact hxs s hs
    · rw [List.mem_singleton.mp hs]
      exact hy
  have hnl : '\n' ∉ joinSegs (xs ++ [y]) := by
    apply not_mem_joinSegs _ _ (by decide)
    intro s hs
    rcases List.mem_append.mp hs with hs | hs
    · exact hxnl s hs
    · rw [List.mem_singleton.mp hs]
      exact hynl
  have hPne : joinSegs (xs ++ [y]) ≠ pstr "/" := joinSegs_concat_ne_root xs y hy
  have hP : normalizePath (joinSegs (xs ++ [y])) = joinSegs (xs ++ [y]) :=
    normalizePath_joinSegs _ (by simp) hok
  simp only [getParentDirectoryAndName, hP, if_neg hPne,
    beforeLastSlash_concat xs y hy.2 hnl, afterLastSlash_concat xs y hy hynl, hres, hdir,
    if_pos]

/-- A cached normalized path resolves with no state change. -/
theorem resolve_cache_hit (S : VFS) (p : Path) (r : Nat)
    (h : dictGet S.cache (normalizePath p) = some r) :
    getNodeObjectByPath S p = (some r, S) := by
  simp [getNodeObjectByPath, h]

/-- Re-resolving a path that already resolved: if the later state has
the same root and agrees with the post-resolution cache on that path's
key, resolution succeeds again with the same node and no state
change. -/
theorem resolve_stable (S S₁ S' : VFS) (q0 : Path) (pr : Nat)
    (hres : getNodeObjectByPath S q0 = (some pr, S₁))
    (hcacheq : dictGet S'.cache (normalizePath q0) = dictGet S₁.cache (normalizePath q0))
    (hroot : S'.rootRef = S.rootRef) :
    getNodeObjectByPath S' q0 = (some pr, S') := by
  rcases hdg : dictGet S.cache (normalizePath q0) with _ | r
  · by_cases hq : normalizePath q0 = pstr "/"
    · rw [hq] at hdg
      simp only [getNodeObjectByPath, hq, hdg, if_pos] at hres
      rw [Prod.mk.injEq] at hres
      obtain ⟨h1, rfl⟩ := hres
      obtain rfl : S.rootRef = pr := Option.some.inj h1
      rw [hq, hdg] at hcacheq
      simp [getNodeObjectByPath, hq, hcacheq, hroot]
    · rcases hw : walkParts S.heap S.rootRef (splitParts (normalizePath q0)) with _ | t
      · simp only [getNodeObjectByPath, hdg, if_neg hq, hw] at hres
        rw [Prod.mk.injEq] at hres
        cases hres.1
      · simp only [getNodeObjectByPath, hdg, if_neg hq, hw] at hres
        rw [Prod.mk.injEq] at hres
        obtain ⟨h1, h2⟩ := hres
        obtain rfl : t = pr := Option.some.inj h1
        rw [← h2] at hcacheq
        simp only [dictGet_dictSet_self] at hcacheq
        simp [getNodeObjectByPath, hcacheq]
  · simp only [getNodeObjectByPath, hdg] at hres
    rw [Prod.mk.injEq] at hres
    obtain ⟨h1, rfl⟩ := hres
    obtain rfl : r = pr := Option.some.inj h1
    rw [hdg] at hcacheq
    simp [getNodeObjectByPath, hcacheq]

end VFSModel

namespace VFSModel

/-- Full characterisation of the create tail: the new object lands at
`nextRef` with all three timestamps at the allocation instant, the
parent gains the child and a refreshed modified time, the normalized
path is cached, and nothing else changes. -/
theorem createTail_spec (S₁ : VFS) (nrm name : Path) (pr : Nat) (kind : NodeKind)
    (pobj : NodeObj) (ch : List (Path × Nat))
    (hpobj : heapGet S₁.heap pr = some pobj)
    (hkind : pobj.kind = NodeKind.dir ch)
    (hne : pr ≠ S₁.nextRef) :
    heapGet (createTail S₁ nrm name pr kind).heap S₁.nextRef =
      some (mkNodeObj name (some pr) S₁.clock S₁.clock S₁.clock kind) ∧
    heapGet (createTail S₁ nrm name pr kind).heap pr = some { pobj with
      kind := NodeKind.dir (dictSet ch name S₁.nextRef), modified := S₁.clock + 1 } ∧
    (createTail S₁ nrm name pr kind).cache = dictSet S₁.cache nrm S₁.nextRef ∧
    (createTail S₁ nrm name pr kind).rootRef = S₁.rootRef ∧
    (createTail S₁ nrm name pr kind).nextRef = S₁.nextRef + 1 ∧
    (∀ q, q ≠ pr → q ≠ S₁.nextRef →
      heapGet (createTail S₁ nrm name pr kind).heap q = heapGet S₁.heap q) := by
  have hself : heapGet (heapSet S₁.heap S₁.nextRef
      (mkNodeObj name (some pr) S₁.clock S₁.clock S₁.clock kind)) S₁.nextRef =
      some (mkNodeObj name (some pr) S₁.clock S₁.clock S₁.clock kind) :=
    heapGet_heapSet_self _ _ _
  have hpobj' : heapGet (heapSet S₁.heap S₁.nextRef
      (mkNodeObj name (some pr) S₁.clock S₁.clock S₁.clock kind)) pr = some pobj := by
    rw [heapGet_heapSet_other _ _ _ _ hne]
    exact hpobj
  simp only [createTail, newNode, tick, alloc, mkNodeObj] at *
  simp only [addChild, hself, hpobj', hkind, tick]
  refine ⟨?_, ?_, by trivial, by trivial, by trivial, ?_⟩
  · rw [heapGet_heapSet_other _ _ _ _ (Ne.symm hne), heapGet_heapSet_self]
  · rw [heapGet_heapSet_self]
  · intro q hq1 hq2
    rw [heapGet_heapSet_other _ _ _ _ hq1, heapGet_heapSet_other _ _ _ _ hq2,
      heapGet_heapSet_other _ _ _ _ hq1, heapGet_heapSet_other _ _ _ _ hq2]

/-- `create_file` success: with the parent resolved, a directory, and
the leaf name vacant, the operation returns `True` and the create
tail's state. -/
theorem createFile_success (S : VFS) (path : Path) (c : List Nat) (pr : Nat)
    (name : Path) (S₁ : VFS) (pobj : NodeObj) (ch : List (Path × Nat))
    (hgp : getParentDirectoryAndName S path = .ok (some pr, name, S₁))
    (hpobj : heapGet S₁.heap pr = some pobj)
    (hkind : pobj.kind = NodeKind.dir ch)
    (hvac : dictGet ch name = none) :
    createFile S path c =
      .ok (true, createTail S₁ (normalizePath path) name pr (.file c c.length)) := by
  simp only [createFile, hgp, hpobj, hkind, hvac, createTail]

theorem createDirectory_success (S : VFS) (path : Path) (pr : Nat)
    (name : Path) (S₁ : VFS) (pobj : NodeObj) (ch : List (Path × Nat))
    (hgp : getParentDirectoryAndName S path = .ok (some pr, name, S₁))
    (hpobj : heapGet S₁.heap pr = some pobj)
    (hkind : pobj.kind = NodeKind.dir ch)
    (hvac : dictGet ch name = none) :
    createDirectory S path =
      .ok (true, createTail S₁ (normalizePath path) name pr (.dir [])) := by
  simp only [createDirectory, hgp, hpobj, hkind, hvac, createTail]

/-- `create_file` name collision: the operation reports failure and
returns the (only cache-warmed) state unchanged. -/
theorem createFile_collision (S : VFS) (path : Path) (c : List Nat) (pr fr : Nat)
    (name : Path) (S₁ : VFS) (pobj : NodeObj) (ch : List (Path × Nat))
    (hgp : getParentDirectoryAndName S path = .ok (some pr, name, S₁))
    (hpobj : heapGet S₁.heap pr = some pobj)
    (hkind : pobj.kind = NodeKind.dir ch)
    (hocc : dictGet ch name = some fr) :
    createFile S path c = .ok (false, S₁) := by
  simp only [createFile, hgp, hpobj, hkind, hocc]

theorem createDirectory_collision (S : VFS) (path : Path) (pr fr : Nat)
    (name : Path) (S₁ : VFS) (pobj : NodeObj) (ch : List (Path × Nat))
    (hgp : getParentDirectoryAndName S path = .ok (some pr, name, S₁))
    (hpobj : heapGet S₁.heap pr = some pobj)
    (hkind : pobj.kind = NodeKind.dir ch)
    (hocc : dictGet ch name = some fr) :
    createDirectory S path = .ok (false, S₁) := by
  simp only [createDirectory, hgp, hpobj, hkind, hocc]

end VFSModel

namespace VFSModel

end VFSModel

namespace VFSModel

end VFSModel

namespace VFSModel

/-! ### Walk and coherence lemmas (claim C5) -/

theorem walkParts_append (h : List (Nat × NodeObj)) (xs ys : List Path) :
    ∀ r, walkParts h r (xs ++ ys) =
      match walkParts h r xs with
      | some t => walkParts h t ys
      | none => none := by
  induction xs with
  | nil => intro r; simp [walkParts]
  | cons x xs ih =>
    intro r
    by_cases hx : x = []
    · simp [walkParts, hx]
    · simp only [List.cons_append, walkParts, if_neg hx]
      rcases hg : heapGet h r with _ | o
      · simp [hg]
      · simp only [hg]
        rcases hk : o.kind with ⟨content, sz⟩ | ⟨ch⟩
        · simp [hk]
        · simp only [hk]
          rcases hc : dictGet ch x with _ | c
          · simp [hc]
          · simp only [hc]
            exact ih c

theorem walkParts_lt (h : List (Nat × NodeObj))
    (hmono : ∀ r o ch, heapGet h r = some o → o.kind = NodeKind.dir ch →
      ∀ nc ∈ ch, r < nc.2) :
    ∀ (parts : List Path) (r t : Nat), walkParts h r parts = some t →
      parts = [] ∨ r < t := by
  intro parts
  induction parts with
  | nil => intro r t _; exact Or.inl rfl
  | cons x xs ih =>
    intro r t hw
    right
    simp only [walkParts] at hw
    by_cases hx : x = []
    · rw [if_pos hx] at hw; cases hw
    · rw [if_neg hx] at hw
      rcases hg : heapGet h r with _ | o
      · simp only [hg] at hw
        cases hw
      · simp only [hg] at hw
        rcases hk : o.kind with ⟨content, sz⟩ | ⟨ch⟩
        · simp only [hk] at hw
          cases hw
        · simp only [hk] at hw
          rcases hc : dictGet ch x with _ | c
          · simp only [hc] at hw
            cases hw
          · simp only [hc] at hw
            have hrc : r < c := hmono r o ch hg hk (x, c) (dictGet_mem _ _ _ hc)
            rcases ih c t hw with rfl | hlt
            · simp only [walkParts, Option.some.injEq] at hw
              omega
            · omega

theorem walkParts_stable (h h' : List (Nat × NodeObj))
    (hmono : ∀ r o ch, heapGet h r = some o → o.kind = NodeKind.dir ch →
      ∀ nc ∈ ch, r < nc.2) :
    ∀ (parts : List Path) (r t : Nat), walkParts h r parts = some t →
      (∀ u, u < t → heapGet h' u = heapGet h u) → walkParts h' r parts = some t := by
  intro parts
  induction parts with
  | nil => intro r t hw _; exact hw
  | cons x xs ih =>
    intro r t hw hagr
    have hrt : r < t := by
      rcases walkParts_lt h hmono (x :: xs) r t hw with hc | hlt
      · cases hc
      · exact hlt
    simp only [walkParts] at hw ⊢
    by_cases hx : x = []
    · rw [if_pos hx] at hw; cases hw
    · rw [if_neg hx] at hw ⊢
      rcases hg : heapGet h r with _ | o
      · simp only [hg] at hw
        cases hw
      · simp only [hg] at hw
        simp only [hagr r hrt, hg]
        rcases hk : o.kind with ⟨content, sz⟩ | ⟨ch⟩
        · simp only [hk] at hw
          cases hw
        · simp only [hk] at hw ⊢
          rcases hc : dictGet ch x with _ | c
          · simp only [hc] at hw
            cases hw
          · simp only [hc] at hw ⊢
            exact ih c t hw hagr

theorem childMono_heap (S : VFS) (hmono : childMonoB S = true) :
    ∀ r o ch, heapGet S.heap r = some o → o.kind = NodeKind.dir ch →
      ∀ nc ∈ ch, r < nc.2 := by
  intro r o ch hg hk nc hnc
  simp only [childMonoB, List.all_eq_true] at hmono
  have := hmono (r, o) (dictGet_mem _ _ _ hg)
  rw [hk] at this
  simp only [List.all_eq_true, decide_eq_true_eq] at this
  exact this nc hnc

theorem namesConsistent_heap (S : VFS) (hnames : namesConsistentB S = true) :
    ∀ r o ch, heapGet S.heap r = some o → o.kind = NodeKind.dir ch →
      ∀ nc ∈ ch, (heapGet S.heap nc.2).map (fun x => x.name) = some nc.1 := by
  intro r o ch hg hk nc hnc
  simp only [namesConsistentB, List.all_eq_true] at hnames
  have := hnames (r, o) (dictGet_mem _ _ _ hg)
  rw [hk] at this
  simp only [List.all_eq_true, decide_eq_true_eq] at this
  exact this nc hnc

/-- In a coherent state, resolution computes exactly the walk of the
normalized path (so a cache hit and an explicit walk agree). -/
theorem resolve_fst_eq_walkOnly (S : VFS) (p : Path) (hco : coherentB S = true) :
    (getNodeObjectByPath S p).1 = walkOnly S (normalizePath p) := by
  rcases hdg : dictGet S.cache (normalizePath p) with _ | r
  · by_cases hq : normalizePath p = pstr "/"
    · rw [hq] at hdg
      simp [getNodeObjectByPath, hq, hdg, walkOnly]
    · rcases hw : walkParts S.heap S.rootRef (splitParts (normalizePath p)) with _ | t <;>
        simp [getNodeObjectByPath, hdg, hq, hw, walkOnly]
  · simp only [coherentB, List.all_eq_true, decide_eq_true_eq] at hco
    have hent := hco (normalizePath p, r) (dictGet_mem _ _ _ hdg)
    simp only [getNodeObjectByPath, hdg]
    exact hent.symm

end VFSModel

namespace VFSModel

/-! ### Rename lemmas (claim C5) -/

theorem dictGet_filter {κ α : Type} [DecidableEq κ] (d : List (κ × α))
    (f : κ × α → Bool) (k : κ) (hf : ∀ v, f (k, v) = false) :
    dictGet (d.filter f) k = none := by
  induction d with
  | nil => rfl
  | cons kv rest ih =>
    obtain ⟨k1, v1⟩ := kv
    by_cases hk : k1 = k
    · subst hk
      simp only [List.filter_cons, hf v1]
      exact ih
    · rcases hfk : f (k1, v1) with _ | _
      · simp only [List.filter_cons, hfk]
        exact ih
      · simp only [List.filter_cons, hfk, cond_true, dictGet, if_neg hk]
        exact ih

/-- `rename` success: parent resolved and a child with the requested
name exists, so the operation returns `True` and the rename tail's
state. -/
theorem renameNode_success (S : VFS) (path newName : Path) (pr nr : Nat)
    (name : Path) (S₁ : VFS) (pobj nobj : NodeObj) (ch : List (Path × Nat))
    (hgp : getParentDirectoryAndName S path = .ok (some pr, name, S₁))
    (hpobj : heapGet S₁.heap pr = some pobj)
    (hkind : pobj.kind = NodeKind.dir ch)
    (hmem : dictGet ch name = some nr)
    (hnobj : heapGet S₁.heap nr = some nobj) :
    renameNode S path newName = .ok (true, renameTail S₁ path newName pr nr nobj) := by
  simp only [renameNode, hgp, hpobj, hkind, hmem, hnobj, renameTail]

/-- Full characterisation of the rename tail. -/
theorem renameTail_spec (S₁ : VFS) (path newName : Path) (pr nr : Nat)
    (pobj nobj : NodeObj) (ch : List (Path × Nat))
    (hpobj : heapGet S₁.heap pr = some pobj)
    (hkind : pobj.kind = NodeKind.dir ch)
    (hmem : dictGet ch nobj.name = some nr)
    (hprne : pr ≠ nr) :
    heapGet (renameTail S₁ path newName pr nr nobj).heap nr =
      some { nobj with name := newName, parent := some pr } ∧
    heapGet (renameTail S₁ path newName pr nr nobj).heap pr =
      some { pobj with kind := NodeKind.dir (dictSet (dictDel ch nobj.name) newName nr), modified := S₁.clock + 1 } ∧
    dictGet (renameTail S₁ path newName pr nr nobj).cache
      (normalizePath (subLastSlash path newName)) = some nr ∧
    (∀ k, k ≠ normalizePath (subLastSlash path newName) →
      (k = normalizePath path ∨ (normalizePath path ++ ['/']).isPrefixOf k) →
      dictGet (renameTail S₁ path newName pr nr nobj).cache k = none) ∧
    (renameTail S₁ path newName pr nr nobj).rootRef = S₁.rootRef ∧
    (∀ q, q ≠ pr → q ≠ nr →
      heapGet (renameTail S₁ path newName pr nr nobj).heap q = heapGet S₁.heap q) := by
  have hB : heapGet (heapSet (heapSet S₁.heap pr { pobj with kind := NodeKind.dir (dictDel ch nobj.name) }) pr { pobj with kind := NodeKind.dir (dictDel ch nobj.name), modified := S₁.clock }) pr = some { pobj with kind := NodeKind.dir (dictDel ch nobj.name), modified := S₁.clock } := heapGet_heapSet_self _ _ _
  simp only [renameTail, removeChild, hpobj, hkind, hmem, tick, addChild,
    removeChangedNodeFromCache, heapGet_heapSet_self,
    heapGet_heapSet_other _ _ _ _ hprne, heapGet_heapSet_other _ _ _ _ (Ne.symm hprne),
    hB]
  refine ⟨by trivial, by trivial, ?_, ?_, by trivial, ?_⟩
  · exact dictGet_dictSet_self _ _ _
  · intro k hknew hkold
    rw [dictGet_dictSet_other _ _ _ _ hknew]
    apply dictGet_filter
    intro v
    simp only [decide_eq_false_iff_not, Decidable.not_not]
    exact hkold
  · intro q hq1 hq2
    simp only [heapGet_heapSet_other _ _ _ _ hq1, heapGet_heapSet_other _ _ _ _ hq2]

end VFSModel

namespace VFSModel

theorem joinSegs_cons_ne_root (s : Path) (rest : List Path) (hs : SegOk s) :
    joinSegs (s :: rest) ≠ pstr "/" := by
  rw [joinSegs_cons]
  intro hc
  have h2 : s ++ joinSegs rest = [] := by
    have h3 := congrArg List.tail hc
    simpa [pstr] using h3
  rcases List.append_eq_nil.mp h2 with ⟨h1, -⟩
  exact hs.1 h1

theorem subLastSlash_concat (xs : List Path) (y n : Path) (hy : '/' ∉ y)
    (hnl : '\n' ∉ joinSegs (xs ++ [y])) :
    subLastSlash (joinSegs (xs ++ [y])) n = joinSegs (xs ++ [n]) := by
  rw [subLastSlash, sSplit_not_mem _ _ hnl]
  show subLine n (joinSegs (xs ++ [y])) = joinSegs (xs ++ [n])
  simp only [subLine, joinSegs_concat, lastSplit_append_last '/' _ _ hy]

theorem joinSegs_concat_ne_concat (xs : List Path) (y z : Path) (hne : z ≠ y) :
    joinSegs (xs ++ [y]) ≠ joinSegs (xs ++ [z]) := by
  rw [joinSegs_concat, joinSegs_concat]
  intro hc
  have := List.append_cancel_left hc
  injection this with _ h2
  exact hne h2.symm

end VFSModel

namespace VFSModel
end VFSModel
